import Mathlib

/-!
Verification of the call-parse front end (lexer, recursive-descent parser,
IR compiler state) against its natural-language specification.

The Rust sources are embedded shallowly:
- `Peekable<Chars>` becomes a `List Char` carried in the lexer state;
- `usize` line/column counters become `Nat`;
- `Range<usize>` becomes `SrcRange` (`end` is a Lean keyword, so the field
  is called `stop`);
- fallible code returns `Except`/`Option`;
- loops whose termination is not structural take an explicit fuel argument;
  exported wrappers instantiate the fuel with a bound computed from the
  input length, so all definitions stay computable and kernel-reducible.
- `f64` payloads (`Token::Decimal`, the float constant pool) are modelled by
  the source text of the literal: no claim in scope inspects a float value,
  and `<digits>.<digits>` never fails to parse as `f64`, so the
  `ParseFloatError` branch of the lexer is unreachable and not modelled.
-/

namespace CallParse

/-- `Range<usize>` from `std::ops`; `stop` is Rust's `end`. -/
structure SrcRange where
  start : Nat
  stop : Nat
deriving DecidableEq, Repr

/-- `Position` from src/position.rs: a pair of half-open line/column ranges. -/
structure Position where
  ln : SrcRange
  col : SrcRange
deriving DecidableEq, Repr

/-- `Position::default()`: both ranges are `0..0`. -/
def Position.dflt : Position := ⟨⟨0, 0⟩, ⟨0, 0⟩⟩

/-- `Position::new(ln, col)`. -/
def Position.new (ln col : SrcRange) : Position := ⟨ln, col⟩

/-- `Position::extend` from src/position.rs lines 17-19: only the line range's
end is copied from `other`; the column range and both starts are untouched. -/
def Position.extend (self other : Position) : Position :=
  { self with ln := ⟨self.ln.start, other.ln.stop⟩ }

/-- `Located<T>` from src/position.rs. -/
structure Located (α : Type) where
  value : α
  pos : Position
deriving DecidableEq, Repr

/-- `Located::map`: transform the payload, keep the span. -/
def Located.map {α β : Type} (self : Located α) (f : α → β) : Located β :=
  ⟨f self.value, self.pos⟩

/-- `Token` from src/lexer.rs. The `Decimal` payload (`f64` in the source) is
modelled by the literal's text, see the file header. -/
inductive Token where
  | Ident (s : String)
  | Integer (v : Int)
  | Decimal (s : String)
  | String (s : String)
  | ParanLeft
  | ParanRight
  | BracketLeft
  | BracketRight
  | BraceLeft
  | BraceRight
  | Equal
  | Semicolon
  | Dot
deriving DecidableEq, Repr

/-- `LexError` from src/lexer.rs. The numeric-parse variants drop the nested
std error payloads, which no caller inspects. -/
inductive LexError where
  | BadCharacter (c : Char)
  | ParseIntError
  | ParseFloatError
  | ExpectedEscapeCharacter
  | UnclosedString
deriving DecidableEq, Repr

/-- `Lexer` state from src/lexer.rs: remaining characters plus the cursor. -/
structure Lexer where
  text : List Char
  ln : Nat
  col : Nat
deriving DecidableEq, Repr

/-- `char::is_ascii_whitespace`: space, tab, newline, form feed, carriage
return. -/
def isAsciiWhitespace (c : Char) : Bool :=
  c == ' ' || c == '\t' || c == '\n' || c == '\x0C' || c == '\r'

/-- `Lexer::pos`: the one-column-wide position at the cursor. -/
def Lexer.pos (l : Lexer) : Position :=
  Position.new ⟨l.ln, l.ln⟩ ⟨l.col, l.col + 1⟩

/-- `Lexer::advance`: consume one character, a newline resets the column and
bumps the line. -/
def Lexer.advance (l : Lexer) : Option (Char × Lexer) :=
  match l.text with
  | [] => none
  | c :: rest =>
    if c = '\n' then some (c, ⟨rest, l.ln + 1, 0⟩)
    else some (c, ⟨rest, l.ln, l.col + 1⟩)

/-- `self.advance();` with the result discarded (src/lexer.rs line 150). -/
def advanceSkip (l : Lexer) : Lexer :=
  match l.advance with
  | none => l
  | some (_, l') => l'

/-- `Lexer::skip_whitespace`. The source returns `Option<()>` but the inner
`self.advance()?` runs only after a successful peek, so it never yields
`None`; the embedding is total. -/
def skipWs : List Char → Nat → Nat → Lexer
  | [], ln, col => ⟨[], ln, col⟩
  | c :: rest, ln, col =>
    if isAsciiWhitespace c then
      if c = '\n' then skipWs rest (ln + 1) 0 else skipWs rest ln (col + 1)
    else ⟨c :: rest, ln, col⟩

/-- The inner comment loop of `Lexer::next` (src/lexer.rs lines 85-90):
consume up to, but not including, the next newline. -/
def dropLine : List Char → Nat → Nat → Lexer
  | [], ln, col => ⟨[], ln, col⟩
  | c :: rest, ln, col =>
    if c = '\n' then ⟨c :: rest, ln, col⟩ else dropLine rest ln (col + 1)

/-- The comment-skipping loop of `Lexer::next` (src/lexer.rs lines 84-93):
while the next character is a hash, drop the line, consume the newline
(`self.advance()?`: at end of input the whole `next` returns `None`), skip
whitespace, repeat. `none` also stands for exhausted fuel, which the callers'
`length + 1` budget never reaches. -/
def commentLoop : Nat → Lexer → Option Lexer
  | 0, _ => none
  | fuel + 1, l =>
    match l.text with
    | '#' :: _ =>
      let l1 := dropLine l.text l.ln l.col
      match l1.advance with
      | none => none
      | some (_, l2) => commentLoop fuel (skipWs l2.text l2.ln l2.col)
    | _ => some l

/-- The three collect-while loops of `Lexer::next` share one shape (escape
digits, lines 128-135; number digits, lines 160-167 and 172-179; identifier
characters, lines 211-218): push the peeked character, extend `pos` with
`self.pos()`, advance. The predicate distinguishes the digit and
alphanumeric instances. -/
def takeLoop (p : Char → Bool) : List Char → Nat → Nat → String → Position → String × Position × Lexer
  | [], ln, col, acc, pos => (acc, pos, ⟨[], ln, col⟩)
  | c :: rest, ln, col, acc, pos =>
    if p c then
      takeLoop p rest ln (col + 1) (acc.push c)
        (pos.extend (Position.new ⟨ln, ln⟩ ⟨col, col + 1⟩))
    else (acc, pos, ⟨c :: rest, ln, col⟩)

/-- Decimal digits of a string folded into a number; payload of the
`str::parse` calls. -/
def digitsToNat (s : String) : Nat :=
  s.toList.foldl (fun a c => a * 10 + (c.toNat - 48)) 0

/-- `str::parse::<u8>` on a digit string: fails when empty or above 255. -/
def parseU8 (s : String) : Option Nat :=
  if s.isEmpty then none
  else if digitsToNat s ≤ 255 then some (digitsToNat s) else none

/-- `str::parse::<i64>` on a digit string: fails when empty or above
`i64::MAX`. -/
def parseI64 (s : String) : Option Int :=
  if s.isEmpty then none
  else if digitsToNat s < 2 ^ 63 then some (Int.ofNat (digitsToNat s)) else none

/-- The string-literal loop of `Lexer::next` (src/lexer.rs lines 108-151).
Faithful to the source, including the unconditional `self.advance()` at line
150 that runs after escape sequences as well, consuming one extra character.
Fuel exhaustion yields `none`; callers pass `length + 1`, which suffices. -/
def strLoop : Nat → Char → String → Lexer → Option (Except (Located LexError) (String × Lexer))
  | 0, _, _, _ => none
  | fuel + 1, endc, acc, l =>
    match l.text with
    | [] => some (.ok (acc, l))
    | c :: _ =>
      if c = endc then some (.ok (acc, l))
      else if c = '\\' then
        match l.advance with
        | none => none
        | some (_, l1) =>
          match l1.advance with
          | none => some (.error ⟨.ExpectedEscapeCharacter, l1.pos⟩)
          | some (e, l2) =>
            if e = 'n' then strLoop fuel endc (acc.push '\n') (advanceSkip l2)
            else if e = 't' then strLoop fuel endc (acc.push '\t') (advanceSkip l2)
            else if e = 'r' then strLoop fuel endc (acc.push '\r') (advanceSkip l2)
            else if e.isDigit then
              match takeLoop Char.isDigit l2.text l2.ln l2.col (String.singleton e) l2.pos with
              | (num, p, l3) =>
                match parseU8 num with
                | some v => strLoop fuel endc (acc.push (Char.ofNat v)) (advanceSkip l3)
                | none => some (.error ⟨.ParseIntError, p⟩)
            else strLoop fuel endc (acc.push e) (advanceSkip l2)
      else strLoop fuel endc (acc.push c) (advanceSkip l)

/-- The token dispatch of `Lexer::next` (src/lexer.rs lines 94-222): the
part after whitespace/comment skipping. Capture the token start position,
consume one character and dispatch on it. The closing quote of a string is
taken with `self.text.next()`, not `advance`, so it does not move the
line/column cursor. -/
def nextCore (l2 : Lexer) : Option (Except (Located LexError) (Located Token × Lexer)) :=
  let pos := l2.pos
  match l2.advance with
  | none => none
  | some (c, l3) =>
    if c = '(' then some (.ok (⟨.ParanLeft, pos⟩, l3))
    else if c = ')' then some (.ok (⟨.ParanRight, pos⟩, l3))
    else if c = '[' then some (.ok (⟨.BracketLeft, pos⟩, l3))
    else if c = ']' then some (.ok (⟨.BracketRight, pos⟩, l3))
    else if c = '{' then some (.ok (⟨.BraceLeft, pos⟩, l3))
    else if c = '}' then some (.ok (⟨.BraceRight, pos⟩, l3))
    else if c = '=' then some (.ok (⟨.Equal, pos⟩, l3))
    else if c = ';' then some (.ok (⟨.Semicolon, pos⟩, l3))
    else if c = '.' then some (.ok (⟨.Dot, pos⟩, l3))
    else if c = '"' ∨ c = '\'' then
      match strLoop (l3.text.length + 1) c "" l3 with
      | none => none
      | some (.error e) => some (.error e)
      | some (.ok (s, l4)) =>
        let pos2 := pos.extend l4.pos
        match l4.text with
        | c2 :: rest =>
          if c2 = c then some (.ok (⟨.String s, pos2⟩, ⟨rest, l4.ln, l4.col⟩))
          else some (.error ⟨.UnclosedString, pos2⟩)
        | [] => some (.error ⟨.UnclosedString, pos2⟩)
    else if c.isDigit then
      match takeLoop Char.isDigit l3.text l3.ln l3.col (String.singleton c) pos with
      | (num, pos2, l4) =>
        match l4.text with
        | '.' :: _ =>
          let pos3 := pos2.extend l4.pos
          let l5 := advanceSkip l4
          match takeLoop Char.isDigit l5.text l5.ln l5.col (num.push '.') pos3 with
          | (num2, pos4, l6) => some (.ok (⟨.Decimal num2, pos4⟩, l6))
        | _ =>
          match parseI64 num with
          | some v => some (.ok (⟨.Integer v, pos2⟩, l4))
          | none => some (.error ⟨.ParseIntError, pos2⟩)
    else if c.isAlphanum then
      match takeLoop Char.isAlphanum l3.text l3.ln l3.col (String.singleton c) pos with
      | (ident, pos2, l4) => some (.ok (⟨.Ident ident, pos2⟩, l4))
    else some (.error ⟨.BadCharacter c, pos⟩)

/-- `Lexer::next` (src/lexer.rs lines 82-223): skip whitespace and comments,
then dispatch on the first character. `none` is the iterator returning
`None` (end of input). -/
def Lexer.next (l : Lexer) : Option (Except (Located LexError) (Located Token × Lexer)) :=
  let l1 := skipWs l.text l.ln l.col
  match commentLoop (l1.text.length + 1) l1 with
  | none => none
  | some l2 => nextCore l2

/-- `Lexer::lex`: pull tokens until `next` yields `None`, stopping at the
first error. Fuel counts emitted tokens; each token consumes at least one
character, so `length + 1` suffices. -/
def lexGo : Nat → Lexer → Option (Except (Located LexError) (List (Located Token)))
  | 0, _ => none
  | fuel + 1, l =>
    match l.next with
    | none => some (.ok [])
    | some (.error e) => some (.error e)
    | some (.ok (t, l')) =>
      match lexGo fuel l' with
      | none => none
      | some (.error e) => some (.error e)
      | some (.ok ts) => some (.ok (t :: ts))

/-- `Lexer::new(text).lex()` on a character list. -/
def lexList (cs : List Char) : Option (Except (Located LexError) (List (Located Token))) :=
  lexGo (cs.length + 1) ⟨cs, 0, 0⟩

/-- A lex result with spans and error locations stripped. -/
def stripRes (r : Option (Except (Located LexError) (List (Located Token)))) :
    Option (Except LexError (List Token)) :=
  match r with
  | none => none
  | some (.error e) => some (.error e.value)
  | some (.ok ts) => some (.ok (ts.map (fun t => t.value)))

/-- Token values of a lex result, spans and error locations stripped. -/
def lexValues (cs : List Char) : Option (Except LexError (List Token)) :=
  stripRes (lexList cs)

/-- `ParseError` from src/parser.rs. -/
inductive ParseError where
  | UnexpectedEOF
  | UnexpectedToken (got : Token)
  | ExpectedToken (expected : Token) (got : Token)
  | ExpectedTokens (expected : List Token) (got : Token)
deriving DecidableEq, Repr

mutual
/-- `Statement` from src/parser.rs. -/
inductive Statement where
  | Assign (path : Located Path) (expr : Located Expression)
  | Call (head : Located Path) (args : List (Located Expression))

/-- `Expression` from src/parser.rs; `Box` is dropped in the embedding. -/
inductive Expression where
  | Atom (a : Atom)
  | Call (head : Located Expression) (args : List (Located Expression))

/-- `Atom` from src/parser.rs. The `Decimal` payload is the literal text and
`Map` entries mirror the `Vec<(Located<String>, Located<Expression>)>`. -/
inductive Atom where
  | Path (p : Path)
  | Integer (v : Int)
  | Decimal (s : String)
  | String (s : String)
  | Expression (e : Located Expression)
  | List (es : List (Located Expression))
  | Map (entries : List (Located String × Located Expression))

/-- `Path` from src/parser.rs. -/
inductive Path where
  | Ident (s : String)
  | Field (head : Located Path) (field : Located Atom)
end

/-- `Program` from src/parser.rs: a list of located statements. -/
structure Program where
  stmts : List (Located Statement)

/-- Token stream consumed by the parser (`Peekable<IntoIter<Located<Token>>>`). -/
abbrev Tokens := List (Located Token)

/-- Result of one `Parsable::parse` call: the located node plus the rest of
the stream; `Option`'s `none` is exhausted fuel, which the exported
wrappers' budgets never reach. -/
abbrev PRes (α : Type) := Option (Except (Located ParseError) (Located α × Tokens))

/-- `Path::ident` (src/parser.rs lines 321-342). On a present non-identifier
token the reported `expected` token is `BracketRight`, exactly as in the
source. -/
def pathIdent : Tokens → Except (Located ParseError) (Located Path × Tokens)
  | [] => .error ⟨.UnexpectedEOF, Position.dflt⟩
  | ⟨.Ident s, p⟩ :: ts => .ok (⟨.Ident s, p⟩, ts)
  | ⟨t, p⟩ :: _ => .error ⟨.ExpectedToken .BracketRight t, p⟩

mutual
/-- `impl Parsable for Atom` (src/parser.rs lines 211-288). -/
def parseAtom : Nat → Tokens → PRes Atom
  | 0, _ => none
  | fuel + 1, ts =>
    match ts with
    | ⟨.Ident _, _⟩ :: _ =>
      match parsePath fuel ts with
      | none => none
      | some (.error e) => some (.error e)
      | some (.ok (p, ts')) => some (.ok (p.map Atom.Path, ts'))
    | [] => some (.error ⟨.UnexpectedEOF, Position.dflt⟩)
    | ⟨tok, pos⟩ :: ts' =>
      match tok with
      | .Integer v => some (.ok (⟨.Integer v, pos⟩, ts'))
      | .Decimal v => some (.ok (⟨.Decimal v, pos⟩, ts'))
      | .String v => some (.ok (⟨.String v, pos⟩, ts'))
      | .ParanLeft =>
        match parseExpression fuel ts' with
        | none => none
        | some (.error e) => some (.error e)
        | some (.ok (expr, ts'')) =>
          match ts'' with
          | [] => some (.error ⟨.UnexpectedEOF, Position.dflt⟩)
          | ⟨ct, cp⟩ :: ts3 =>
            if ct = .ParanRight then
              some (.ok (⟨.Expression expr, pos.extend cp⟩, ts3))
            else some (.error ⟨.ExpectedToken .ParanRight ct, cp⟩)
      | .BracketLeft =>
        match parseExprList fuel .BracketRight ts' with
        | none => none
        | some (.error e) => some (.error e)
        | some (.ok (exprs, ts'')) =>
          match ts'' with
          | [] => some (.error ⟨.UnexpectedEOF, Position.dflt⟩)
          | ⟨ct, cp⟩ :: ts3 =>
            if ct = .BracketRight then
              some (.ok (⟨.List exprs, pos.extend cp⟩, ts3))
            else some (.error ⟨.ExpectedToken .BracketRight ct, cp⟩)
      | tok => some (.error ⟨.UnexpectedToken tok, pos⟩)

/-- The argument-collecting loops (src/parser.rs lines 99-108, 170-179,
256-265): parse expressions until the closing token is peeked or the stream
ends. The three source copies differ only in the closing token. -/
def parseExprList : Nat → Token → Tokens → Option (Except (Located ParseError) (List (Located Expression) × Tokens))
  | 0, _, _ => none
  | fuel + 1, close, ts =>
    match ts with
    | [] => some (.ok ([], ts))
    | ⟨t, _⟩ :: _ =>
      if t = close then some (.ok ([], ts))
      else
        match parseExpression fuel ts with
        | none => none
        | some (.error e) => some (.error e)
        | some (.ok (e, ts')) =>
          match parseExprList fuel close ts' with
          | none => none
          | some (.error e2) => some (.error e2)
          | some (.ok (es, ts'')) => some (.ok (e :: es, ts''))

/-- `impl Parsable for Expression` (src/parser.rs lines 157-210): an atom
followed by the call-chaining loop. -/
def parseExpression : Nat → Tokens → PRes Expression
  | 0, _ => none
  | fuel + 1, ts =>
    match parseAtom fuel ts with
    | none => none
    | some (.error e) => some (.error e)
    | some (.ok (atom, ts')) => exprCallLoop fuel (atom.map Expression.Atom) ts'

/-- The call-chaining loop of `Expression::parse` (src/parser.rs lines
160-207): while a `(` is peeked, wrap the head in a further `Call`. -/
def exprCallLoop : Nat → Located Expression → Tokens → PRes Expression
  | 0, _, _ => none
  | fuel + 1, head, ts =>
    match ts with
    | ⟨.ParanLeft, _⟩ :: ts' =>
      match parseExprList fuel .ParanRight ts' with
      | none => none
      | some (.error e) => some (.error e)
      | some (.ok (args, ts'')) =>
        match ts'' with
        | [] => some (.error ⟨.UnexpectedEOF, Position.dflt⟩)
        | ⟨ct, cp⟩ :: ts3 =>
          if ct = .ParanRight then
            exprCallLoop fuel ⟨.Call head args, head.pos.extend cp⟩ ts3
          else some (.error ⟨.ExpectedToken .ParanRight ct, cp⟩)
    | _ => some (.ok (head, ts))

/-- `impl Parsable for Path` (src/parser.rs lines 289-320): an identifier
followed by the field-chaining loop. -/
def parsePath : Nat → Tokens → PRes Path
  | 0, _ => none
  | fuel + 1, ts =>
    match pathIdent ts with
    | .error e => some (.error e)
    | .ok (head, ts') => pathLoop fuel head ts'

/-- The field-chaining loop of `Path::parse`: on a peeked `.`, a peeked
identifier becomes a `Path` field, anything else parses as a general atom. -/
def pathLoop : Nat → Located Path → Tokens → PRes Path
  | 0, _, _ => none
  | fuel + 1, head, ts =>
    match ts with
    | ⟨.Dot, _⟩ :: ts' =>
      match
        (match ts' with
         | ⟨.Ident _, _⟩ :: _ =>
           match pathIdent ts' with
           | .error e => some (.error e)
           | .ok (p, r) => some (.ok (p.map Atom.Path, r))
         | _ => parseAtom fuel ts' : PRes Atom) with
      | none => none
      | some (.error e) => some (.error e)
      | some (.ok (field, ts'')) =>
        pathLoop fuel ⟨.Field head field, head.pos.extend field.pos⟩ ts''
    | _ => some (.ok (head, ts))
end

/-- The trailing semicolon check of `Statement::parse` (src/parser.rs lines
138-154): the statement's span is not extended over the semicolon. -/
def semicolonCheck (stat : Located Statement) (ts : Tokens) : PRes Statement :=
  match ts with
  | [] => some (.error ⟨.UnexpectedEOF, Position.dflt⟩)
  | ⟨ct, cp⟩ :: ts' =>
    if ct = .Semicolon then some (.ok (stat, ts'))
    else some (.error ⟨.ExpectedToken .Semicolon ct, cp⟩)

/-- `impl Parsable for Statement` (src/parser.rs lines 80-156). -/
def parseStatement (fuel : Nat) (ts : Tokens) : PRes Statement :=
  match parsePath fuel ts with
  | none => none
  | some (.error e) => some (.error e)
  | some (.ok (path, ts1)) =>
    match ts1 with
    | [] => some (.error ⟨.UnexpectedEOF, Position.dflt⟩)
    | ⟨ct, cp⟩ :: ts2 =>
      match ct with
      | .Equal =>
        match parseExpression fuel ts2 with
        | none => none
        | some (.error e) => some (.error e)
        | some (.ok (expr, ts3)) =>
          semicolonCheck ⟨.Assign path expr, path.pos.extend expr.pos⟩ ts3
      | .ParanLeft =>
        match parseExprList fuel .ParanRight ts2 with
        | none => none
        | some (.error e) => some (.error e)
        | some (.ok (args, ts3)) =>
          match ts3 with
          | [] => some (.error ⟨.UnexpectedEOF, Position.dflt⟩)
          | ⟨ct2, cp2⟩ :: ts4 =>
            if ct2 = .ParanRight then
              semicolonCheck ⟨.Call path args, path.pos.extend cp2⟩ ts4
            else some (.error ⟨.ExpectedToken .ParanRight ct2, cp2⟩)
      | ct => some (.error ⟨.ExpectedTokens [.Equal, .ParanLeft] ct, cp⟩)

/-- The statement loop of `Program::parse` (src/parser.rs lines 68-79): the
program's span starts from `Position::default()` and is extended with each
statement's span. -/
def progLoop : Nat → Position → List (Located Statement) → Tokens → PRes Program
  | 0, _, _, _ => none
  | fuel + 1, pos, acc, ts =>
    match ts with
    | [] => some (.ok (⟨⟨acc⟩, pos⟩, []))
    | _ :: _ =>
      match parseStatement fuel ts with
      | none => none
      | some (.error e) => some (.error e)
      | some (.ok (stat, ts')) =>
        progLoop fuel (pos.extend stat.pos) (acc ++ [stat]) ts'

/-- `impl Parsable for Program`. -/
def parseProgram (fuel : Nat) (ts : Tokens) : PRes Program :=
  progLoop fuel Position.dflt [] ts

/-- Fuel budget that is ample for any token stream: the recursive-descent
nesting depth is bounded by a small multiple of the stream length. -/
def parseFuel (ts : Tokens) : Nat := 8 * (ts.length + 1)

/-- `Program::parse` on a full token stream, fuel baked in. -/
def parseProgramFull (ts : Tokens) : PRes Program :=
  parseProgram (parseFuel ts) ts

/-- `Expression::parse` on a full token stream, fuel baked in. -/
def parseExpressionFull (ts : Tokens) : PRes Expression :=
  parseExpression (parseFuel ts) ts

/-- `IR` from src/ir.rs: the opcode set. -/
inductive IR where
  | None
  | Jump (addr : Nat)
  | JumpIf (negative : Bool) (cond : Nat) (addr : Nat)
  | Call (dst : Option Nat) (func : Nat) (start : Nat) (amount : Nat)
  | Move (dst : Nat) (src : Nat)
  | Get (dst : Nat) (addr : Nat)
  | Set (addr : Nat) (src : Nat)
  | String (dst : Nat) (addr : Nat)
  | Int (dst : Nat) (addr : Nat)
  | Float (dst : Nat) (addr : Nat)
  | List (dst : Nat) (length : Nat)
  | Map (dst : Nat)
  | Field (dst : Nat) (head : Nat) (field : Nat)
  | FieldString (dst : Nat) (head : Nat) (addr : Nat)
deriving DecidableEq, Repr

/-- `LabeledIR` from src/ir.rs. -/
structure LabeledIR where
  ir : IR
  label : Option Nat
deriving DecidableEq, Repr

/-- `LabeledIR::new`. -/
def LabeledIR.new (ir : IR) : LabeledIR := ⟨ir, none⟩

/-- `LabeledIR::labeled`. -/
def LabeledIR.labeled (self : LabeledIR) (label : Nat) : LabeledIR :=
  { self with label := some label }

/-- `Closure` from src/ir.rs. The `f64` constant pool is modelled by literal
texts, see the file header. -/
structure Closure where
  code : List (Located LabeledIR)
  string : List String
  int : List Int
  float : List String
deriving DecidableEq, Repr

/-- `Closure::default()`. -/
def Closure.dflt : Closure := ⟨[], [], [], []⟩

/-- `IRCompiler` from src/ir.rs lines 93-97. `HashSet<usize>` is modelled as
`Finset Nat`; `Vec` push/pop act on the list's back, as in Rust. -/
structure IRCompiler where
  closure_stack : List Closure
  registers : List (Finset Nat)
  labels : List (List Nat)

/-- `IRCompiler::new`: one initial frame on each of the three stacks. -/
def IRCompiler.new : IRCompiler := ⟨[Closure.dflt], [∅], [[]]⟩

/-- `IRCompiler::push_closure`: push a fresh frame on all three stacks. -/
def IRCompiler.push_closure (s : IRCompiler) : IRCompiler :=
  ⟨s.closure_stack ++ [Closure.dflt], s.registers ++ [∅], s.labels ++ [[]]⟩

/-- `IRCompiler::pop_closure`: pop all three stacks, returning the popped
closure (`Vec::pop` on an empty vector returns `None` and leaves it empty). -/
def IRCompiler.pop_closure (s : IRCompiler) : Option Closure × IRCompiler :=
  (s.closure_stack.getLast?, ⟨s.closure_stack.dropLast, s.registers.dropLast, s.labels.dropLast⟩)

/-- Compiler states reachable from `IRCompiler::new` by `push_closure` and
`pop_closure` calls. -/
inductive ReachableState : IRCompiler → Prop where
  | new : ReachableState IRCompiler.new
  | push (s : IRCompiler) : ReachableState s → ReachableState s.push_closure
  | pop (s : IRCompiler) : ReachableState s → ReachableState (s.pop_closure).2

/-- Does an expression's head position hold a further call? Distinguishes the
nested (left-associated) call shape from a flat call. -/
def Expression.headIsCall : Expression → Bool
  | .Call h _ =>
    match h.value with
    | .Call _ _ => true
    | _ => false
  | _ => false

/-- Is a parse error an `ExpectedToken` variant? -/
def ParseError.isExpectedToken : ParseError → Bool
  | .ExpectedToken _ _ => true
  | _ => false

/-- C2 counterexample: the source text of a string literal holding the two
decimal escapes 110 and 105 lexes to the token `String "n105"`, not
`String "HI"`: escape 110 decodes to the character with code 110 (`n`), and
the lexer's unconditional post-escape `advance` then consumes the second
backslash, leaving `105` as literal text. -/
theorem lex_decimal_escape_not_HI :
    lexValues "\"\\110\\105\"".toList = some (.ok [Token.String "n105"]) ∧
      Token.String "n105" ≠ Token.String "HI" := by
  exact ⟨rfl, by decide⟩

/-- C2 amended: lexing `"\110\105"` produces the single string token
`"n105"`, with the span of the opening quote column. -/
theorem lex_decimal_escape_example :
    lexList "\"\\110\\105\"".toList =
      some (.ok [⟨Token.String "n105", ⟨⟨0, 0⟩, ⟨0, 1⟩⟩⟩]) := by
  rfl

/-- C4 counterexample: the token stream of `print("hello"` (closing paren
and semicolon missing) fails with `UnexpectedEOF` at `Position::default()`,
which is not an `ExpectedToken` error and carries no position near the
string literal. -/
theorem missing_paren_error_not_expected_token :
    lexList "print(\"hello\"".toList =
      some (.ok [⟨Token.Ident "print", ⟨⟨0, 0⟩, ⟨0, 1⟩⟩⟩,
        ⟨Token.ParanLeft, ⟨⟨0, 0⟩, ⟨5, 6⟩⟩⟩,
        ⟨Token.String "hello", ⟨⟨0, 0⟩, ⟨6, 7⟩⟩⟩]) ∧
    parseProgramFull [⟨Token.Ident "print", ⟨⟨0, 0⟩, ⟨0, 1⟩⟩⟩,
        ⟨Token.ParanLeft, ⟨⟨0, 0⟩, ⟨5, 6⟩⟩⟩,
        ⟨Token.String "hello", ⟨⟨0, 0⟩, ⟨6, 7⟩⟩⟩] =
      some (.error ⟨.UnexpectedEOF, Position.dflt⟩) ∧
    ParseError.UnexpectedEOF.isExpectedToken = false := by
  exact ⟨rfl, rfl, rfl⟩

/-- C4 amended: parsing the token sequence of `print("hello"` fails with
`UnexpectedEOF` at `Position::default()` — the argument loop runs off the
end of the stream before any `ExpectedToken` check fires, and the EOF error
loses the source position. -/
theorem missing_paren_unexpected_eof :
    parseProgramFull [⟨Token.Ident "print", ⟨⟨0, 0⟩, ⟨0, 1⟩⟩⟩,
        ⟨Token.ParanLeft, ⟨⟨0, 0⟩, ⟨5, 6⟩⟩⟩,
        ⟨Token.String "hello", ⟨⟨0, 0⟩, ⟨6, 7⟩⟩⟩] =
      some (.error ⟨.UnexpectedEOF, Position.dflt⟩) := by
  rfl

/-- C5: `print("hello");` lexes to exactly
`[Ident "print", ParanLeft, String "hello", ParanRight, Semicolon]`, and
that token sequence parses to a one-statement program whose statement is
`Statement::Call` with head `Path::Ident "print"` and the single argument
`Expression::Atom (Atom::String "hello")`. -/
theorem hello_world_end_to_end :
    lexList "print(\"hello\");".toList =
      some (.ok [⟨Token.Ident "print", ⟨⟨0, 0⟩, ⟨0, 1⟩⟩⟩,
        ⟨Token.ParanLeft, ⟨⟨0, 0⟩, ⟨5, 6⟩⟩⟩,
        ⟨Token.String "hello", ⟨⟨0, 0⟩, ⟨6, 7⟩⟩⟩,
        ⟨Token.ParanRight, ⟨⟨0, 0⟩, ⟨12, 13⟩⟩⟩,
        ⟨Token.Semicolon, ⟨⟨0, 0⟩, ⟨13, 14⟩⟩⟩]) ∧
    parseProgramFull [⟨Token.Ident "print", ⟨⟨0, 0⟩, ⟨0, 1⟩⟩⟩,
        ⟨Token.ParanLeft, ⟨⟨0, 0⟩, ⟨5, 6⟩⟩⟩,
        ⟨Token.String "hello", ⟨⟨0, 0⟩, ⟨6, 7⟩⟩⟩,
        ⟨Token.ParanRight, ⟨⟨0, 0⟩, ⟨12, 13⟩⟩⟩,
        ⟨Token.Semicolon, ⟨⟨0, 0⟩, ⟨13, 14⟩⟩⟩] =
      some (.ok (⟨⟨[⟨Statement.Call ⟨Path.Ident "print", ⟨⟨0, 0⟩, ⟨0, 1⟩⟩⟩
          [⟨Expression.Atom (Atom.String "hello"), ⟨⟨0, 0⟩, ⟨6, 7⟩⟩⟩],
        ⟨⟨0, 0⟩, ⟨0, 1⟩⟩⟩]⟩, ⟨⟨0, 0⟩, ⟨0, 0⟩⟩⟩, [])) := by
  exact ⟨rfl, rfl⟩

/-- C6: `f(a)(b)` parses left-associated, to a call whose head is itself the
call `f(a)`, and not to a flat call `f` applied to `[a, b]`. -/
theorem call_chain_left_assoc :
    lexList "f(a)(b)".toList =
      some (.ok [⟨Token.Ident "f", ⟨⟨0, 0⟩, ⟨0, 1⟩⟩⟩,
        ⟨Token.ParanLeft, ⟨⟨0, 0⟩, ⟨1, 2⟩⟩⟩,
        ⟨Token.Ident "a", ⟨⟨0, 0⟩, ⟨2, 3⟩⟩⟩,
        ⟨Token.ParanRight, ⟨⟨0, 0⟩, ⟨3, 4⟩⟩⟩,
        ⟨Token.ParanLeft, ⟨⟨0, 0⟩, ⟨4, 5⟩⟩⟩,
        ⟨Token.Ident "b", ⟨⟨0, 0⟩, ⟨5, 6⟩⟩⟩,
        ⟨Token.ParanRight, ⟨⟨0, 0⟩, ⟨6, 7⟩⟩⟩]) ∧
    parseExpressionFull [⟨Token.Ident "f", ⟨⟨0, 0⟩, ⟨0, 1⟩⟩⟩,
        ⟨Token.ParanLeft, ⟨⟨0, 0⟩, ⟨1, 2⟩⟩⟩,
        ⟨Token.Ident "a", ⟨⟨0, 0⟩, ⟨2, 3⟩⟩⟩,
        ⟨Token.ParanRight, ⟨⟨0, 0⟩, ⟨3, 4⟩⟩⟩,
        ⟨Token.ParanLeft, ⟨⟨0, 0⟩, ⟨4, 5⟩⟩⟩,
        ⟨Token.Ident "b", ⟨⟨0, 0⟩, ⟨5, 6⟩⟩⟩,
        ⟨Token.ParanRight, ⟨⟨0, 0⟩, ⟨6, 7⟩⟩⟩] =
      some (.ok (⟨Expression.Call
          ⟨Expression.Call ⟨Expression.Atom (Atom.Path (Path.Ident "f")), ⟨⟨0, 0⟩, ⟨0, 1⟩⟩⟩
            [⟨Expression.Atom (Atom.Path (Path.Ident "a")), ⟨⟨0, 0⟩, ⟨2, 3⟩⟩⟩],
           ⟨⟨0, 0⟩, ⟨0, 1⟩⟩⟩
          [⟨Expression.Atom (Atom.Path (Path.Ident "b")), ⟨⟨0, 0⟩, ⟨5, 6⟩⟩⟩],
        ⟨⟨0, 0⟩, ⟨0, 1⟩⟩⟩, [])) ∧
    Expression.Call
        ⟨Expression.Call ⟨Expression.Atom (Atom.Path (Path.Ident "f")), ⟨⟨0, 0⟩, ⟨0, 1⟩⟩⟩
          [⟨Expression.Atom (Atom.Path (Path.Ident "a")), ⟨⟨0, 0⟩, ⟨2, 3⟩⟩⟩],
         ⟨⟨0, 0⟩, ⟨0, 1⟩⟩⟩
        [⟨Expression.Atom (Atom.Path (Path.Ident "b")), ⟨⟨0, 0⟩, ⟨5, 6⟩⟩⟩] ≠
      Expression.Call ⟨Expression.Atom (Atom.Path (Path.Ident "f")), ⟨⟨0, 0⟩, ⟨0, 1⟩⟩⟩
        [⟨Expression.Atom (Atom.Path (Path.Ident "a")), ⟨⟨0, 0⟩, ⟨2, 3⟩⟩⟩,
         ⟨Expression.Atom (Atom.Path (Path.Ident "b")), ⟨⟨0, 0⟩, ⟨5, 6⟩⟩⟩] := by
  refine ⟨rfl, rfl, fun h => ?_⟩
  exact Bool.noConfusion (congrArg Expression.headIsCall h)

/-- C9: a present non-identifier token at a path-identifier position — in
particular the first token of a statement — fails with
`ExpectedToken (expected BracketRight) got`, the copy-pasted `BracketRight`
of `Path::ident`, not an identifier expectation. -/
theorem path_ident_expects_bracket_right :
    (∀ (t : Located Token) (ts : Tokens), (∀ s, t.value ≠ Token.Ident s) →
      pathIdent (t :: ts) = .error ⟨.ExpectedToken .BracketRight t.value, t.pos⟩) ∧
    (∀ (fuel : Nat) (t : Located Token) (ts : Tokens), (∀ s, t.value ≠ Token.Ident s) →
      parseStatement (fuel + 1) (t :: ts) =
        some (.error ⟨.ExpectedToken .BracketRight t.value, t.pos⟩)) := by
  have base : ∀ (t : Located Token) (ts : Tokens), (∀ s, t.value ≠ Token.Ident s) →
      pathIdent (t :: ts) = .error ⟨.ExpectedToken .BracketRight t.value, t.pos⟩ := by
    intro t ts h
    obtain ⟨v, p⟩ := t
    cases v
    case Ident s => exact absurd rfl (h s)
    all_goals rfl
  refine ⟨base, fun fuel t ts h => ?_⟩
  simp only [parseStatement, parsePath, base t ts h]

/-- C9 witness: instantiated at an integer token heading the stream. -/
theorem path_ident_expects_bracket_right_witness :
    pathIdent [⟨Token.Integer 1, Position.dflt⟩] =
      .error ⟨.ExpectedToken .BracketRight (Token.Integer 1), Position.dflt⟩ ∧
    parseStatement 1 [⟨Token.Integer 1, Position.dflt⟩] =
      some (.error ⟨.ExpectedToken .BracketRight (Token.Integer 1), Position.dflt⟩) :=
  ⟨path_ident_expects_bracket_right.1 ⟨Token.Integer 1, Position.dflt⟩ []
      (fun _ h => Token.noConfusion h),
   path_ident_expects_bracket_right.2 0 ⟨Token.Integer 1, Position.dflt⟩ []
      (fun _ h => Token.noConfusion h)⟩

/-- C10 counterexample: the state reached from `IRCompiler::new` by one
`pop_closure` has all three stacks empty, and a further `pop_closure` there
removes nothing — so `pop_closure` does not always remove exactly one
frame from every reachable state. -/
theorem pop_closure_empty_removes_nothing :
    ReachableState (IRCompiler.new.pop_closure).2 ∧
    (IRCompiler.new.pop_closure).2.closure_stack.length = 0 ∧
    (((IRCompiler.new.pop_closure).2.pop_closure).2.closure_stack.length =
      (IRCompiler.new.pop_closure).2.closure_stack.length) :=
  ⟨.pop _ .new, rfl, rfl⟩

/-- C10 amended: in every reachable `IRCompiler` state the three stacks have
equal lengths; `push_closure` always adds exactly one frame to each, and
`pop_closure` removes exactly one frame from each whenever the stacks are
nonempty (from the empty reachable states it removes nothing). -/
theorem ircompiler_stack_lengths :
    (∀ s : IRCompiler, ReachableState s →
      s.closure_stack.length = s.registers.length ∧
      s.closure_stack.length = s.labels.length) ∧
    (∀ s : IRCompiler,
      s.push_closure.closure_stack.length = s.closure_stack.length + 1 ∧
      s.push_closure.registers.length = s.registers.length + 1 ∧
      s.push_closure.labels.length = s.labels.length + 1) ∧
    (∀ s : IRCompiler, ReachableState s → s.closure_stack ≠ [] →
      (s.pop_closure).2.closure_stack.length + 1 = s.closure_stack.length ∧
      (s.pop_closure).2.registers.length + 1 = s.registers.length ∧
      (s.pop_closure).2.labels.length + 1 = s.labels.length) := by
  have inv : ∀ s : IRCompiler, ReachableState s →
      s.closure_stack.length = s.registers.length ∧
      s.closure_stack.length = s.labels.length := by
    intro s hs
    induction hs with
    | new => exact ⟨rfl, rfl⟩
    | push s _ ih =>
      simp only [IRCompiler.push_closure, List.length_append, List.length_cons,
        List.length_nil]
      omega
    | pop s _ ih =>
      simp only [IRCompiler.pop_closure, List.length_dropLast]
      omega
  refine ⟨inv, fun s => ?_, fun s hs hne => ?_⟩
  · simp [IRCompiler.push_closure]
  · have h := inv s hs
    have hlen : 0 < s.closure_stack.length := List.length_pos.mpr hne
    simp only [IRCompiler.pop_closure, List.length_dropLast]
    omega

/-- C10 witness: the invariant and the pop clause instantiated at the
initial state. -/
theorem ircompiler_stack_lengths_witness :
    (IRCompiler.new.closure_stack.length = IRCompiler.new.registers.length ∧
      IRCompiler.new.closure_stack.length = IRCompiler.new.labels.length) ∧
    ((IRCompiler.new.pop_closure).2.closure_stack.length + 1 =
        IRCompiler.new.closure_stack.length ∧
      (IRCompiler.new.pop_closure).2.registers.length + 1 =
        IRCompiler.new.registers.length ∧
      (IRCompiler.new.pop_closure).2.labels.length + 1 =
        IRCompiler.new.labels.length) :=
  ⟨ircompiler_stack_lengths.1 IRCompiler.new .new,
   ircompiler_stack_lengths.2.2 IRCompiler.new .new (by simp [IRCompiler.new])⟩

/-- Did a `Lexer::next` call fail with `UnclosedString`? -/
def isUnclosedStringResult (r : Option (Except (Located LexError) (Located Token × Lexer))) : Bool :=
  match r with
  | some (.error e) => e.value == LexError.UnclosedString
  | _ => false

/-- Did the string-literal scan starting just after the opening quote
consume the whole remaining input? -/
def stringScanExhausted (q : Char) (l : Lexer) : Bool :=
  match strLoop (l.text.length + 1) q "" l with
  | some (.ok (_, l4)) => l4.text.isEmpty
  | _ => false

/-- The string-literal loop stops only at end of input or with the closing
quote as the next character. -/
theorem strLoop_remainder (fuel : Nat) :
    ∀ (endc : Char) (acc : String) (l : Lexer) (s : String) (l' : Lexer),
      strLoop fuel endc acc l = some (.ok (s, l')) →
      l'.text = [] ∨ ∃ rest, l'.text = endc :: rest := by
  induction fuel with
  | zero => intro endc acc l s l' h; exact absurd h (by simp [strLoop])
  | succ n ih =>
    intro endc acc l s l' h
    rw [strLoop] at h
    split at h
    · rename_i heq
      obtain ⟨rfl, rfl⟩ : acc = s ∧ l = l' := by
        simpa using h
      exact .inl heq
    · rename_i c crest heq
      split at h
      · rename_i hc
        obtain ⟨rfl, rfl⟩ : acc = s ∧ l = l' := by
          simpa using h
        exact .inr ⟨crest, by rw [heq, hc]⟩
      · split at h
        · split at h
          · exact absurd h (by simp)
          · split at h
            · exact absurd h (by simp)
            · split at h
              · exact ih _ _ _ _ _ h
              · split at h
                · exact ih _ _ _ _ _ h
                · split at h
                  · exact ih _ _ _ _ _ h
                  · split at h
                    · split at h
                      · split at h
                        · exact ih _ _ _ _ _ h
                        · exact absurd h (by simp)
                    · exact ih _ _ _ _ _ h
        · exact ih _ _ _ _ _ h

/-- The string-literal loop never reports `UnclosedString` itself; that
error is produced only by the closing-quote check after the loop. -/
theorem strLoop_no_unclosed (fuel : Nat) :
    ∀ (endc : Char) (acc : String) (l : Lexer) (e : Located LexError),
      strLoop fuel endc acc l = some (.error e) →
      e.value ≠ LexError.UnclosedString := by
  induction fuel with
  | zero => intro endc acc l e h; exact absurd h (by simp [strLoop])
  | succ n ih =>
    intro endc acc l e h
    rw [strLoop] at h
    split at h
    · exact absurd h (by simp)
    · split at h
      · exact absurd h (by simp)
      · split at h
        · split at h
          · exact absurd h (by simp)
          · split at h
            · obtain rfl : (⟨.ExpectedEscapeCharacter, _⟩ : Located LexError) = e := by
                simpa using h
              simp
            · split at h
              · exact ih _ _ _ _ h
              · split at h
                · exact ih _ _ _ _ h
                · split at h
                  · exact ih _ _ _ _ h
                  · split at h
                    · split at h
                      · split at h
                        · exact ih _ _ _ _ h
                        · obtain rfl : (⟨.ParseIntError, _⟩ : Located LexError) = e := by
                            simpa using h
                          simp
                    · exact ih _ _ _ _ h
        · exact ih _ _ _ _ h

/-- C3 amended: on input starting with a quote, `Lexer::next` reports
`UnclosedString` exactly when the string scan (which, after every escape
sequence, also consumes the following character) exhausts the input without
leaving an unconsumed closing quote; when it succeeds, the token is a
`String` token. A textually terminated literal can still fail — with
`ParseIntError` on an out-of-range decimal escape, or with `UnclosedString`
when an escape swallows the closing quote. -/
theorem unclosed_string_iff_scan_exhausts :
    ∀ (q : Char) (cs : List Char) (ln col : Nat), (q = '"' ∨ q = '\'') →
      isUnclosedStringResult (Lexer.next ⟨q :: cs, ln, col⟩) =
        stringScanExhausted q ⟨cs, ln, col + 1⟩ ∧
      (∀ (t : Located Token) (l' : Lexer),
        Lexer.next ⟨q :: cs, ln, col⟩ = some (.ok (t, l')) →
        ∃ s, t.value = Token.String s) := by
  have main : ∀ (q : Char) (cs : List Char) (ln col : Nat),
      Lexer.next ⟨q :: cs, ln, col⟩ =
        (match strLoop (cs.length + 1) q "" ⟨cs, ln, col + 1⟩ with
         | none => none
         | some (.error e) => some (.error e)
         | some (.ok (s, l4)) =>
           match l4.text with
           | c2 :: rest =>
             if c2 = q then
               some (.ok (⟨.String s,
                 (Position.new ⟨ln, ln⟩ ⟨col, col + 1⟩).extend l4.pos⟩,
                 ⟨rest, l4.ln, l4.col⟩))
             else some (.error ⟨.UnclosedString,
               (Position.new ⟨ln, ln⟩ ⟨col, col + 1⟩).extend l4.pos⟩)
           | [] => some (.error ⟨.UnclosedString,
               (Position.new ⟨ln, ln⟩ ⟨col, col + 1⟩).extend l4.pos⟩)) →
      isUnclosedStringResult (Lexer.next ⟨q :: cs, ln, col⟩) =
        stringScanExhausted q ⟨cs, ln, col + 1⟩ ∧
      (∀ (t : Located Token) (l' : Lexer),
        Lexer.next ⟨q :: cs, ln, col⟩ = some (.ok (t, l')) →
        ∃ s, t.value = Token.String s) := by
    intro q cs ln col hnext
    rcases hM : strLoop (cs.length + 1) q "" ⟨cs, ln, col + 1⟩ with _ | r
    · rw [hnext, hM]
      exact ⟨by simp [isUnclosedStringResult, stringScanExhausted, hM], by simp⟩
    · rcases r with e | ⟨s, l4⟩
      · rw [hnext, hM]
        have hne := strLoop_no_unclosed _ _ _ _ _ hM
        constructor
        · simp only [isUnclosedStringResult, stringScanExhausted, hM]
          simpa using hne
        · simp
      · rcases hrem : l4.text with _ | ⟨c2, rest⟩
        · constructor
          · simp [hnext, hM, hrem, isUnclosedStringResult, stringScanExhausted]
          · simp [hnext, hM, hrem]
        · have hc2 : c2 = q := by
            rcases strLoop_remainder _ _ _ _ _ _ hM with h0 | ⟨rest', h1⟩
            · rw [hrem] at h0; cases h0
            · rw [hrem] at h1; exact (List.cons.injEq _ _ _ _ ▸ h1).1
          subst hc2
          constructor
          · simp [hnext, hM, hrem, isUnclosedStringResult, stringScanExhausted]
          · intro t l' h
            rw [hnext] at h
            simp only [hM, hrem, if_pos rfl] at h
            obtain ⟨rfl, rfl⟩ :
                (⟨.String s, (Position.new ⟨ln, ln⟩ ⟨col, col + 1⟩).extend l4.pos⟩ :
                  Located Token) = t ∧ (⟨rest, l4.ln, l4.col⟩ : Lexer) = l' := by
              simpa using h
            exact ⟨s, rfl⟩
  intro q cs ln col hq
  rcases hq with rfl | rfl
  · exact main _ cs ln col rfl
  · exact main _ cs ln col rfl

/-- C3 counterexample: the four-character literal `"\n"` ends with its
matching closing quote, yet lexing fails with `UnclosedString`: the
unconditional post-escape `advance` consumes the closing quote as part of
the escape, so the scan exhausts the input. -/
theorem terminated_escape_string_unclosed :
    lexValues "\"\\n\"".toList = some (.error .UnclosedString) ∧
      "\"\\n\"".toList.getLast? = some '"' :=
  ⟨rfl, rfl⟩

/-- C3 witness: the dichotomy instantiated at the `"\n"` input, where both
sides hold. -/
theorem unclosed_string_iff_scan_exhausts_witness :
    isUnclosedStringResult (Lexer.next ⟨['"', '\\', 'n', '"'], 0, 0⟩) =
      stringScanExhausted '"' ⟨['\\', 'n', '"'], 0, 1⟩ ∧
    stringScanExhausted '"' ⟨['\\', 'n', '"'], 0, 1⟩ = true :=
  ⟨(unclosed_string_iff_scan_exhausts '"' ['\\', 'n', '"'] 0 0 (Or.inl rfl)).1, rfl⟩

mutual
/-- Does an atom contain a `Map` anywhere? -/
def Atom.hasMap : Atom → Bool
  | .Map _ => true
  | .Path p => p.hasMap
  | .Expression e => e.value.hasMap
  | .List es => exprsHaveMap es
  | _ => false

/-- Does an expression contain a `Map` anywhere? -/
def Expression.hasMap : Expression → Bool
  | .Atom a => a.hasMap
  | .Call h args => h.value.hasMap || exprsHaveMap args

/-- Does a path contain a `Map` anywhere? -/
def Path.hasMap : Path → Bool
  | .Ident _ => false
  | .Field h f => h.value.hasMap || f.value.hasMap

/-- Does any expression of the list contain a `Map`? -/
def exprsHaveMap : List (Located Expression) → Bool
  | [] => false
  | e :: es => e.value.hasMap || exprsHaveMap es
end

/-- Does a statement contain a `Map` anywhere? -/
def Statement.hasMap : Statement → Bool
  | .Assign p e => p.value.hasMap || e.value.hasMap
  | .Call h args => h.value.hasMap || exprsHaveMap args

/-- Does any statement of a program contain a `Map`? -/
def stmtsHaveMap : List (Located Statement) → Bool
  | [] => false
  | s :: ss => s.value.hasMap || stmtsHaveMap ss

/-- Does a program contain a `Map` anywhere? -/
def Program.hasMap (p : Program) : Bool := stmtsHaveMap p.stmts

/-- `Path::ident` only ever returns an identifier path, which holds no map. -/
theorem pathIdent_no_map (ts : Tokens) (p : Located Path) (rest : Tokens)
    (h : pathIdent ts = .ok (p, rest)) : p.value.hasMap = false := by
  match ts, h with
  | ⟨.Ident s, q⟩ :: ts, h =>
    obtain ⟨rfl, rfl⟩ : (⟨Path.Ident s, q⟩ : Located Path) = p ∧ ts = rest := by
      simpa [pathIdent] using h
    rfl

/-- `semicolonCheck` passes the statement through unchanged. -/
theorem semicolonCheck_ok (stat : Located Statement) (ts : Tokens)
    (node : Located Statement) (rest : Tokens)
    (h : semicolonCheck stat ts = some (.ok (node, rest))) : node = stat := by
  unfold semicolonCheck at h
  split at h
  · exact absurd h (by simp)
  · split at h
    · obtain ⟨h1, -⟩ : stat = node ∧ _ := by simpa using h
      exact h1.symm
    · exact absurd h (by simp)

/-- No parse function ever builds a `Map` atom: the `Atom::parse` match has
no `BraceLeft` arm, so no constructor of the result can contain one. -/
theorem parse_no_map (fuel : Nat) :
    (∀ ts node rest, parseAtom fuel ts = some (.ok (node, rest)) →
      node.value.hasMap = false) ∧
    (∀ close ts es rest, parseExprList fuel close ts = some (.ok (es, rest)) →
      exprsHaveMap es = false) ∧
    (∀ ts node rest, parseExpression fuel ts = some (.ok (node, rest)) →
      node.value.hasMap = false) ∧
    (∀ head ts node rest, head.value.hasMap = false →
      exprCallLoop fuel head ts = some (.ok (node, rest)) →
      node.value.hasMap = false) ∧
    (∀ ts node rest, parsePath fuel ts = some (.ok (node, rest)) →
      node.value.hasMap = false) ∧
    (∀ head ts node rest, head.value.hasMap = false →
      pathLoop fuel head ts = some (.ok (node, rest)) →
      node.value.hasMap = false) := by
  induction fuel with
  | zero =>
    refine ⟨?_, ?_, ?_, ?_, ?_, ?_⟩
    · intro ts node rest h; exact absurd h (by simp [parseAtom])
    · intro close ts es rest h; exact absurd h (by simp [parseExprList])
    · intro ts node rest h; exact absurd h (by simp [parseExpression])
    · intro head ts node rest hh h; exact absurd h (by simp [exprCallLoop])
    · intro ts node rest h; exact absurd h (by simp [parsePath])
    · intro head ts node rest hh h; exact absurd h (by simp [pathLoop])
  | succ n ih =>
    obtain ⟨ihAtom, ihList, ihExpr, ihECL, ihPath, ihPL⟩ := ih
    have atomCase : ∀ ts node rest, parseAtom (n + 1) ts = some (.ok (node, rest)) →
        node.value.hasMap = false := by
      intro ts node rest h
      simp only [parseAtom] at h
      split at h
      · split at h
        · exact Option.noConfusion h
        · exact absurd h (by simp)
        · rename_i p ts1 heq
          obtain ⟨rfl, rfl⟩ : p.map Atom.Path = node ∧ ts1 = rest := by
            simpa using h
          simpa [Located.map, Atom.hasMap] using ihPath _ _ _ heq
      · exact absurd h (by simp)
      · split at h
        · obtain ⟨rfl, rfl⟩ := by simpa using h
          rfl
        · obtain ⟨rfl, rfl⟩ := by simpa using h
          rfl
        · obtain ⟨rfl, rfl⟩ := by simpa using h
          rfl
        · split at h
          · exact Option.noConfusion h
          · exact absurd h (by simp)
          · rename_i expr ts2 heq
            split at h
            · exact absurd h (by simp)
            · split at h
              · obtain ⟨rfl, rfl⟩ := by simpa using h
                simpa [Atom.hasMap] using ihExpr _ _ _ heq
              · exact absurd h (by simp)
        · split at h
          · exact Option.noConfusion h
          · exact absurd h (by simp)
          · rename_i exprs ts2 heq
            split at h
            · exact absurd h (by simp)
            · split at h
              · obtain ⟨rfl, rfl⟩ := by simpa using h
                simpa [Atom.hasMap] using ihList _ _ _ _ heq
              · exact absurd h (by simp)
        · exact absurd h (by simp)
    have listCase : ∀ close ts es rest,
        parseExprList (n + 1) close ts = some (.ok (es, rest)) →
        exprsHaveMap es = false := by
      intro close ts es rest h
      simp only [parseExprList] at h
      split at h
      · obtain ⟨rfl, rfl⟩ := by simpa using h
        rfl
      · split at h
        · obtain ⟨rfl, rfl⟩ := by simpa using h
          rfl
        · split at h
          · exact Option.noConfusion h
          · exact absurd h (by simp)
          · rename_i e ts1 heq1
            split at h
            · exact Option.noConfusion h
            · exact absurd h (by simp)
            · rename_i es1 ts2 heq2
              obtain ⟨rfl, rfl⟩ := by simpa using h
              simp [exprsHaveMap, ihExpr _ _ _ heq1, ihList _ _ _ _ heq2]
    have exprCase : ∀ ts node rest,
        parseExpression (n + 1) ts = some (.ok (node, rest)) →
        node.value.hasMap = false := by
      intro ts node rest h
      simp only [parseExpression] at h
      split at h
      · exact Option.noConfusion h
      · exact absurd h (by simp)
      · rename_i atom ts1 heq
        refine ihECL _ _ _ _ ?_ h
        simpa [Located.map, Expression.hasMap] using ihAtom _ _ _ heq
    have eclCase : ∀ head ts node rest, head.value.hasMap = false →
        exprCallLoop (n + 1) head ts = some (.ok (node, rest)) →
        node.value.hasMap = false := by
      intro head ts node rest hh h
      simp only [exprCallLoop] at h
      split at h
      · split at h
        · exact Option.noConfusion h
        · exact absurd h (by simp)
        · rename_i args ts2 heq1
          split at h
          · exact absurd h (by simp)
          · split at h
            · refine ihECL _ _ _ _ ?_ h
              simp [Expression.hasMap, hh, ihList _ _ _ _ heq1]
            · exact absurd h (by simp)
      · obtain ⟨rfl, rfl⟩ := by simpa using h
        exact hh
    have pathCase : ∀ ts node rest, parsePath (n + 1) ts = some (.ok (node, rest)) →
        node.value.hasMap = false := by
      intro ts node rest h
      simp only [parsePath] at h
      split at h
      · exact absurd h (by simp)
      · rename_i head ts1 heq
        exact ihPL _ _ _ _ (pathIdent_no_map _ _ _ heq) h
    have plCase : ∀ head ts node rest, head.value.hasMap = false →
        pathLoop (n + 1) head ts = some (.ok (node, rest)) →
        node.value.hasMap = false := by
      intro head ts node rest hh h
      simp only [pathLoop] at h
      split at h
      · split at h
        · exact Option.noConfusion h
        · exact absurd h (by simp)
        · rename_i field ts2 heq
          have hf : field.value.hasMap = false := by
            split at heq
            · split at heq
              · exact absurd heq (by simp)
              · rename_i p r heq2
                obtain ⟨rfl, rfl⟩ : p.map Atom.Path = field ∧ r = ts2 := by
                  simpa using heq
                simpa [Located.map, Atom.hasMap] using pathIdent_no_map _ _ _ heq2
            · exact ihAtom _ _ _ heq
          refine ihPL _ _ _ _ ?_ h
          simp [Path.hasMap, hh, hf]
      · obtain ⟨rfl, rfl⟩ := by simpa using h
        exact hh
    exact ⟨atomCase, listCase, exprCase, eclCase, pathCase, plCase⟩

/-- A parsed statement holds no `Map`. -/
theorem parseStatement_no_map (fuel : Nat) (ts : Tokens) (node : Located Statement)
    (rest : Tokens) (h : parseStatement fuel ts = some (.ok (node, rest))) :
    node.value.hasMap = false := by
  unfold parseStatement at h
  split at h
  · exact Option.noConfusion h
  · exact absurd h (by simp)
  · rename_i path ts1 heqP
    have hp := (parse_no_map fuel).2.2.2.2.1 _ _ _ heqP
    split at h
    · exact absurd h (by simp)
    · split at h
      · split at h
        · exact Option.noConfusion h
        · exact absurd h (by simp)
        · rename_i expr ts3 heqE
          have he := (parse_no_map fuel).2.2.1 _ _ _ heqE
          rw [semicolonCheck_ok _ _ _ _ h]
          simp [Statement.hasMap, hp, he]
      · split at h
        · exact Option.noConfusion h
        · exact absurd h (by simp)
        · rename_i args ts3 heqA
          have ha := (parse_no_map fuel).2.1 _ _ _ _ heqA
          split at h
          · exact absurd h (by simp)
          · split at h
            · rw [semicolonCheck_ok _ _ _ _ h]
              simp [Statement.hasMap, hp, ha]
            · exact absurd h (by simp)
      · exact absurd h (by simp)

/-- `stmtsHaveMap` distributes over append. -/
theorem stmtsHaveMap_append (a b : List (Located Statement)) :
    stmtsHaveMap (a ++ b) = (stmtsHaveMap a || stmtsHaveMap b) := by
  induction a with
  | nil => simp [stmtsHaveMap]
  | cons s ss ih => simp [stmtsHaveMap, ih, Bool.or_assoc]

/-- The program loop preserves `Map`-freeness of the accumulator. -/
theorem progLoop_no_map (fuel : Nat) :
    ∀ (pos : Position) (acc : List (Located Statement)) (ts : Tokens)
      (node : Located Program) (rest : Tokens), stmtsHaveMap acc = false →
      progLoop fuel pos acc ts = some (.ok (node, rest)) →
      node.value.hasMap = false := by
  induction fuel with
  | zero => intro pos acc ts node rest hacc h; exact absurd h (by simp [progLoop])
  | succ n ih =>
    intro pos acc ts node rest hacc h
    simp only [progLoop] at h
    split at h
    · obtain ⟨rfl, rfl⟩ := by simpa using h
      simpa [Program.hasMap] using hacc
    · split at h
      · exact Option.noConfusion h
      · exact absurd h (by simp)
      · rename_i stat ts1 heq
        refine ih _ _ _ _ _ ?_ h
        simp [stmtsHaveMap_append, stmtsHaveMap, hacc,
          parseStatement_no_map _ _ _ _ heq]

/-- C8: a `BraceLeft` token in atom position always fails with
`UnexpectedToken BraceLeft` at that token's span, and no successful parse
ever produces an AST containing an `Atom::Map` — the declared `Map` variant
is unreachable from the parser. -/
theorem no_map_atoms_parsed :
    (∀ (fuel : Nat) (p : Position) (ts : Tokens),
      parseAtom (fuel + 1) (⟨.BraceLeft, p⟩ :: ts) =
        some (.error ⟨.UnexpectedToken .BraceLeft, p⟩)) ∧
    (∀ (fuel : Nat) (ts : Tokens) (prog : Located Program) (rest : Tokens),
      parseProgram fuel ts = some (.ok (prog, rest)) →
      prog.value.hasMap = false) := by
  constructor
  · intro fuel p ts
    rfl
  · intro fuel ts prog rest h
    unfold parseProgram at h
    exact progLoop_no_map fuel Position.dflt [] ts prog rest rfl h

/-- C8 witness: the `BraceLeft` failure at a concrete token, and the
`Map`-freeness of a concrete parsed program. -/
theorem no_map_atoms_parsed_witness :
    parseAtom 1 [⟨Token.BraceLeft, Position.dflt⟩] =
      some (.error ⟨.UnexpectedToken .BraceLeft, Position.dflt⟩) ∧
    Program.hasMap ⟨[⟨Statement.Assign ⟨Path.Ident "a", ⟨⟨0, 0⟩, ⟨0, 0⟩⟩⟩
      ⟨Expression.Atom (Atom.Integer 1), ⟨⟨0, 0⟩, ⟨0, 0⟩⟩⟩, ⟨⟨0, 0⟩, ⟨0, 0⟩⟩⟩]⟩ = false :=
  ⟨no_map_atoms_parsed.1 0 Position.dflt [],
   no_map_atoms_parsed.2 8
     [⟨.Ident "a", Position.dflt⟩, ⟨.Equal, Position.dflt⟩,
      ⟨.Integer 1, Position.dflt⟩, ⟨.Semicolon, Position.dflt⟩]
     ⟨⟨[⟨Statement.Assign ⟨Path.Ident "a", ⟨⟨0, 0⟩, ⟨0, 0⟩⟩⟩
       ⟨Expression.Atom (Atom.Integer 1), ⟨⟨0, 0⟩, ⟨0, 0⟩⟩⟩, ⟨⟨0, 0⟩, ⟨0, 0⟩⟩⟩]⟩,
       ⟨⟨0, 0⟩, ⟨0, 0⟩⟩⟩ [] rfl⟩

/-- `p` has the same span start (line start and whole column range) as `q`. -/
def startsLike (p q : Position) : Prop :=
  p.ln.start = q.ln.start ∧ p.col = q.col

/-- `Position::extend` never changes the line start or the column range. -/
theorem startsLike_extend (p q : Position) : startsLike (p.extend q) p :=
  ⟨rfl, rfl⟩

/-- `startsLike` is transitive. -/
theorem startsLike_trans {p q r : Position} (h1 : startsLike p q)
    (h2 : startsLike q r) : startsLike p r :=
  ⟨h1.1.trans h2.1, h1.2.trans h2.2⟩

/-- Every successfully parsed atom, expression and path node starts its span
where its first token starts: the line start and the whole column range come
from the first consumed token, because `Position::extend` rewrites only the
line end. The loop clauses track the head node being extended. -/
theorem parse_pos (fuel : Nat) :
    (∀ (t : Located Token) ts node rest,
      parseAtom fuel (t :: ts) = some (.ok (node, rest)) →
      startsLike node.pos t.pos) ∧
    (∀ (t : Located Token) ts node rest,
      parseExpression fuel (t :: ts) = some (.ok (node, rest)) →
      startsLike node.pos t.pos) ∧
    (∀ (head : Located Expression) ts node rest,
      exprCallLoop fuel head ts = some (.ok (node, rest)) →
      startsLike node.pos head.pos) ∧
    (∀ (t : Located Token) ts node rest,
      parsePath fuel (t :: ts) = some (.ok (node, rest)) →
      startsLike node.pos t.pos) ∧
    (∀ (head : Located Path) ts node rest,
      pathLoop fuel head ts = some (.ok (node, rest)) →
      startsLike node.pos head.pos) := by
  induction fuel with
  | zero =>
    refine ⟨?_, ?_, ?_, ?_, ?_⟩
    · intro t ts node rest h; exact absurd h (by simp [parseAtom])
    · intro t ts node rest h; exact absurd h (by simp [parseExpression])
    · intro head ts node rest h; exact absurd h (by simp [exprCallLoop])
    · intro t ts node rest h; exact absurd h (by simp [parsePath])
    · intro head ts node rest h; exact absurd h (by simp [pathLoop])
  | succ n ih =>
    obtain ⟨ihAtom, ihExpr, ihECL, ihPath, ihPL⟩ := ih
    have pathCase : ∀ (t : Located Token) ts node rest,
        parsePath (n + 1) (t :: ts) = some (.ok (node, rest)) →
        startsLike node.pos t.pos := by
      intro t ts node rest h
      simp only [parsePath] at h
      split at h
      · exact absurd h (by simp)
      · rename_i head ts1 heq
        have hhead : head.pos = t.pos := by
          rcases t with ⟨v, p⟩
          cases v <;> simp [pathIdent] at heq
          obtain ⟨⟨rfl, rfl⟩, -⟩ := heq
          rfl
        exact hhead ▸ ihPL _ _ _ _ h
    have atomCase : ∀ (t : Located Token) ts node rest,
        parseAtom (n + 1) (t :: ts) = some (.ok (node, rest)) →
        startsLike node.pos t.pos := by
      intro t ts node rest h
      obtain ⟨tv, tp⟩ := t
      cases tv with
      | Ident s =>
        simp only [parseAtom] at h
        split at h
        · exact Option.noConfusion h
        · exact absurd h (by simp)
        · rename_i p ts1 heq
          obtain ⟨rfl, rfl⟩ : p.map Atom.Path = node ∧ ts1 = rest := by
            simpa using h
          exact ihPath _ _ _ _ heq
      | Integer v =>
        obtain ⟨rfl, rfl⟩ := by simpa [parseAtom] using h
        exact ⟨rfl, rfl⟩
      | Decimal v =>
        obtain ⟨rfl, rfl⟩ := by simpa [parseAtom] using h
        exact ⟨rfl, rfl⟩
      | String v =>
        obtain ⟨rfl, rfl⟩ := by simpa [parseAtom] using h
        exact ⟨rfl, rfl⟩
      | ParanLeft =>
        simp only [parseAtom] at h
        split at h
        · exact Option.noConfusion h
        · exact absurd h (by simp)
        · split at h
          · exact absurd h (by simp)
          · split at h
            · obtain ⟨rfl, rfl⟩ := by simpa using h
              exact startsLike_extend _ _
            · exact absurd h (by simp)
      | BracketLeft =>
        simp only [parseAtom] at h
        split at h
        · exact Option.noConfusion h
        · exact absurd h (by simp)
        · split at h
          · exact absurd h (by simp)
          · split at h
            · obtain ⟨rfl, rfl⟩ := by simpa using h
              exact startsLike_extend _ _
            · exact absurd h (by simp)
      | ParanRight => exact absurd h (by simp [parseAtom])
      | BracketRight => exact absurd h (by simp [parseAtom])
      | BraceLeft => exact absurd h (by simp [parseAtom])
      | BraceRight => exact absurd h (by simp [parseAtom])
      | Equal => exact absurd h (by simp [parseAtom])
      | Semicolon => exact absurd h (by simp [parseAtom])
      | Dot => exact absurd h (by simp [parseAtom])
    have eclCase : ∀ (head : Located Expression) ts node rest,
        exprCallLoop (n + 1) head ts = some (.ok (node, rest)) →
        startsLike node.pos head.pos := by
      intro head ts node rest h
      simp only [exprCallLoop] at h
      split at h
      · split at h
        · exact Option.noConfusion h
        · exact absurd h (by simp)
        · split at h
          · exact absurd h (by simp)
          · split at h
            · exact startsLike_trans (ihECL _ _ _ _ h) (startsLike_extend _ _)
            · exact absurd h (by simp)
      · obtain ⟨rfl, rfl⟩ := by simpa using h
        exact ⟨rfl, rfl⟩
    have exprCase : ∀ (t : Located Token) ts node rest,
        parseExpression (n + 1) (t :: ts) = some (.ok (node, rest)) →
        startsLike node.pos t.pos := by
      intro t ts node rest h
      simp only [parseExpression] at h
      split at h
      · exact Option.noConfusion h
      · exact absurd h (by simp)
      · rename_i atom ts1 heq
        exact startsLike_trans (ihECL _ _ _ _ h) (ihAtom _ _ _ _ heq)
    have plCase : ∀ (head : Located Path) ts node rest,
        pathLoop (n + 1) head ts = some (.ok (node, rest)) →
        startsLike node.pos head.pos := by
      intro head ts node rest h
      simp only [pathLoop] at h
      split at h
      · split at h
        · exact Option.noConfusion h
        · exact absurd h (by simp)
        · exact startsLike_trans (ihPL _ _ _ _ h) (startsLike_extend _ _)
      · obtain ⟨rfl, rfl⟩ := by simpa using h
        exact ⟨rfl, rfl⟩
    exact ⟨atomCase, exprCase, eclCase, pathCase, plCase⟩

/-- The program loop only extends its position, so the result keeps the
span start it was seeded with. -/
theorem progLoop_pos (fuel : Nat) :
    ∀ (pos : Position) (acc : List (Located Statement)) (ts : Tokens)
      (prog : Located Program) (rest : Tokens),
      progLoop fuel pos acc ts = some (.ok (prog, rest)) →
      startsLike prog.pos pos := by
  induction fuel with
  | zero =>
    intro pos acc ts prog rest h
    exact absurd h (by simp [progLoop])
  | succ n ih =>
    intro pos acc ts prog rest h
    simp only [progLoop] at h
    split at h
    · cases h
      exact ⟨rfl, rfl⟩
    · split at h
      · exact Option.noConfusion h
      · exact absurd h (by simp)
      · rename_i stat ts2 heq
        exact startsLike_trans (ih _ _ _ _ _ h) (startsLike_extend pos stat.pos)

/-- C1 counterexample: for `print("hello");` the parsed statement's span is
line 0..0, column 0..1 — its end does not equal the span end of the last
consumed token (the semicolon at column 13..14, which the statement parser
never extends over), and its column range is that of the first token only,
since `Position::extend` copies nothing but the line end. -/
theorem statement_span_not_last_token_end :
    parseProgramFull [⟨Token.Ident "print", ⟨⟨0, 0⟩, ⟨0, 1⟩⟩⟩,
        ⟨Token.ParanLeft, ⟨⟨0, 0⟩, ⟨5, 6⟩⟩⟩,
        ⟨Token.String "hello", ⟨⟨0, 0⟩, ⟨6, 7⟩⟩⟩,
        ⟨Token.ParanRight, ⟨⟨0, 0⟩, ⟨12, 13⟩⟩⟩,
        ⟨Token.Semicolon, ⟨⟨0, 0⟩, ⟨13, 14⟩⟩⟩] =
      some (.ok (⟨⟨[⟨Statement.Call ⟨Path.Ident "print", ⟨⟨0, 0⟩, ⟨0, 1⟩⟩⟩
          [⟨Expression.Atom (Atom.String "hello"), ⟨⟨0, 0⟩, ⟨6, 7⟩⟩⟩],
        ⟨⟨0, 0⟩, ⟨0, 1⟩⟩⟩]⟩, ⟨⟨0, 0⟩, ⟨0, 0⟩⟩⟩, [])) ∧
    (⟨⟨0, 0⟩, ⟨0, 1⟩⟩ : Position).col.stop ≠ (⟨⟨0, 0⟩, ⟨13, 14⟩⟩ : Position).col.stop :=
  ⟨rfl, by decide⟩

/-- C1 amended: every successfully parsed statement, expression, atom and
path node has the span start of its first token — the line start and the
entire column range are those of the first consumed token. The program node
is the exception: `Program::parse` seeds its span from `Position::default()`,
so a program's line start is `0` and its column range is always `0..0`,
regardless of its first token. Span ends track only line ends of the parts
the parser extends over (excluding a statement's trailing semicolon), never
column ends. -/
theorem node_span_start_from_first_token :
    (∀ (fuel : Nat) (t : Located Token) (ts : Tokens) node rest,
      parseStatement fuel (t :: ts) = some (.ok (node, rest)) →
      node.pos.ln.start = t.pos.ln.start ∧ node.pos.col = t.pos.col) ∧
    (∀ (fuel : Nat) (t : Located Token) (ts : Tokens) node rest,
      parseExpression fuel (t :: ts) = some (.ok (node, rest)) →
      node.pos.ln.start = t.pos.ln.start ∧ node.pos.col = t.pos.col) ∧
    (∀ (fuel : Nat) (t : Located Token) (ts : Tokens) node rest,
      parseAtom fuel (t :: ts) = some (.ok (node, rest)) →
      node.pos.ln.start = t.pos.ln.start ∧ node.pos.col = t.pos.col) ∧
    (∀ (fuel : Nat) (t : Located Token) (ts : Tokens) node rest,
      parsePath fuel (t :: ts) = some (.ok (node, rest)) →
      node.pos.ln.start = t.pos.ln.start ∧ node.pos.col = t.pos.col) ∧
    (∀ (fuel : Nat) (ts : Tokens) (prog : Located Program) (rest : Tokens),
      parseProgram fuel ts = some (.ok (prog, rest)) →
      prog.pos.ln.start = 0 ∧ prog.pos.col = ⟨0, 0⟩) := by
  refine ⟨?_, fun fuel => (parse_pos fuel).2.1, fun fuel => (parse_pos fuel).1,
    fun fuel => (parse_pos fuel).2.2.2.1,
    fun fuel ts prog rest h => progLoop_pos fuel Position.dflt [] ts prog rest h⟩
  intro fuel t ts node rest h
  unfold parseStatement at h
  split at h
  · exact Option.noConfusion h
  · exact absurd h (by simp)
  · rename_i path ts1 heqP
    have hp : startsLike path.pos t.pos := (parse_pos fuel).2.2.2.1 _ _ _ _ heqP
    split at h
    · exact absurd h (by simp)
    · split at h
      · split at h
        · exact Option.noConfusion h
        · exact absurd h (by simp)
        · rename_i expr ts3 heqE
          rw [semicolonCheck_ok _ _ _ _ h]
          exact startsLike_trans (startsLike_extend _ _) hp
      · split at h
        · exact Option.noConfusion h
        · exact absurd h (by simp)
        · rename_i args ts3 heqA
          split at h
          · exact absurd h (by simp)
          · split at h
            · rw [semicolonCheck_ok _ _ _ _ h]
              exact startsLike_trans (startsLike_extend _ _) hp
            · exact absurd h (by simp)
      · exact absurd h (by simp)

/-- C1 witness: the statement clause and the program clause instantiated on
the `print("hello");` token stream. -/
theorem node_span_start_from_first_token_witness :
    parseStatement 8 [⟨Token.Ident "print", ⟨⟨0, 0⟩, ⟨0, 1⟩⟩⟩,
        ⟨Token.ParanLeft, ⟨⟨0, 0⟩, ⟨5, 6⟩⟩⟩,
        ⟨Token.String "hello", ⟨⟨0, 0⟩, ⟨6, 7⟩⟩⟩,
        ⟨Token.ParanRight, ⟨⟨0, 0⟩, ⟨12, 13⟩⟩⟩,
        ⟨Token.Semicolon, ⟨⟨0, 0⟩, ⟨13, 14⟩⟩⟩] =
      some (.ok (⟨Statement.Call ⟨Path.Ident "print", ⟨⟨0, 0⟩, ⟨0, 1⟩⟩⟩
          [⟨Expression.Atom (Atom.String "hello"), ⟨⟨0, 0⟩, ⟨6, 7⟩⟩⟩],
        ⟨⟨0, 0⟩, ⟨0, 1⟩⟩⟩, [])) ∧
    ((⟨⟨0, 0⟩, ⟨0, 1⟩⟩ : Position).ln.start = (⟨⟨0, 0⟩, ⟨0, 1⟩⟩ : Position).ln.start ∧
      (⟨⟨0, 0⟩, ⟨0, 1⟩⟩ : Position).col = (⟨⟨0, 0⟩, ⟨0, 1⟩⟩ : Position).col) ∧
    ((⟨⟨0, 0⟩, ⟨0, 0⟩⟩ : Position).ln.start = 0 ∧
      (⟨⟨0, 0⟩, ⟨0, 0⟩⟩ : Position).col = ⟨0, 0⟩) :=
  ⟨rfl,
   node_span_start_from_first_token.1 8 ⟨Token.Ident "print", ⟨⟨0, 0⟩, ⟨0, 1⟩⟩⟩
     [⟨Token.ParanLeft, ⟨⟨0, 0⟩, ⟨5, 6⟩⟩⟩,
      ⟨Token.String "hello", ⟨⟨0, 0⟩, ⟨6, 7⟩⟩⟩,
      ⟨Token.ParanRight, ⟨⟨0, 0⟩, ⟨12, 13⟩⟩⟩,
      ⟨Token.Semicolon, ⟨⟨0, 0⟩, ⟨13, 14⟩⟩⟩]
     ⟨Statement.Call ⟨Path.Ident "print", ⟨⟨0, 0⟩, ⟨0, 1⟩⟩⟩
        [⟨Expression.Atom (Atom.String "hello"), ⟨⟨0, 0⟩, ⟨6, 7⟩⟩⟩],
      ⟨⟨0, 0⟩, ⟨0, 1⟩⟩⟩ [] rfl,
   node_span_start_from_first_token.2.2.2.2 48
     [⟨Token.Ident "print", ⟨⟨0, 0⟩, ⟨0, 1⟩⟩⟩,
      ⟨Token.ParanLeft, ⟨⟨0, 0⟩, ⟨5, 6⟩⟩⟩,
      ⟨Token.String "hello", ⟨⟨0, 0⟩, ⟨6, 7⟩⟩⟩,
      ⟨Token.ParanRight, ⟨⟨0, 0⟩, ⟨12, 13⟩⟩⟩,
      ⟨Token.Semicolon, ⟨⟨0, 0⟩, ⟨13, 14⟩⟩⟩]
     ⟨⟨[⟨Statement.Call ⟨Path.Ident "print", ⟨⟨0, 0⟩, ⟨0, 1⟩⟩⟩
          [⟨Expression.Atom (Atom.String "hello"), ⟨⟨0, 0⟩, ⟨6, 7⟩⟩⟩],
        ⟨⟨0, 0⟩, ⟨0, 1⟩⟩⟩]⟩, ⟨⟨0, 0⟩, ⟨0, 0⟩⟩⟩ [] rfl⟩

/-- The whitespace skip consumes from the front only. -/
theorem skipWs_suffix (cs : List Char) : ∀ ln col, (skipWs cs ln col).text <:+ cs := by
  induction cs with
  | nil => intro ln col; simp [skipWs]
  | cons c rest ih =>
    intro ln col
    rw [skipWs]
    split
    · split
      · exact (ih _ _).trans (List.suffix_cons c rest)
      · exact (ih _ _).trans (List.suffix_cons c rest)
    · exact List.suffix_refl _

/-- The comment-line skip consumes from the front only. -/
theorem dropLine_suffix (cs : List Char) : ∀ ln col, (dropLine cs ln col).text <:+ cs := by
  induction cs with
  | nil => intro ln col; simp [dropLine]
  | cons c rest ih =>
    intro ln col
    rw [dropLine]
    split
    · exact List.suffix_refl _
    · exact (ih _ _).trans (List.suffix_cons c rest)

/-- The collect-while loop consumes from the front only. -/
theorem takeLoop_suffix (p : Char → Bool) (cs : List Char) :
    ∀ ln col acc pos, (takeLoop p cs ln col acc pos).2.2.text <:+ cs := by
  induction cs with
  | nil => intro ln col acc pos; simp [takeLoop]
  | cons c rest ih =>
    intro ln col acc pos
    rw [takeLoop]
    split
    · exact (ih _ _ _ _).trans (List.suffix_cons c rest)
    · exact List.suffix_refl _

/-- `advance` leaves a suffix. -/
theorem advance_suffix (l : Lexer) (c : Char) (l' : Lexer)
    (h : l.advance = some (c, l')) : l'.text <:+ l.text ∧ l'.text.length < l.text.length := by
  unfold Lexer.advance at h
  split at h
  · exact Option.noConfusion h
  · rename_i c0 rest heq
    split at h <;>
      (obtain ⟨rfl, rfl⟩ := by simpa using h
       exact ⟨heq ▸ List.suffix_cons c0 rest, by simp [heq]⟩)

/-- `advanceSkip` leaves a suffix. -/
theorem advanceSkip_suffix (l : Lexer) : (advanceSkip l).text <:+ l.text := by
  unfold advanceSkip
  split
  · exact List.suffix_refl _
  · rename_i c l' h
    exact (advance_suffix l c l' h).1

/-- The comment loop consumes from the front only. -/
theorem commentLoop_suffix (fuel : Nat) :
    ∀ (l l' : Lexer), commentLoop fuel l = some l' → l'.text <:+ l.text := by
  induction fuel with
  | zero => intro l l' h; exact absurd h (by simp [commentLoop])
  | succ n ih =>
    intro l l' h
    simp only [commentLoop] at h
    split at h
    · rename_i heq
      split at h
      · exact Option.noConfusion h
      · rename_i c l2 hadv
        refine ((ih _ _ h).trans ?_).trans (dropLine_suffix l.text l.ln l.col)
        exact (skipWs_suffix _ _ _).trans (advance_suffix _ _ _ hadv).1
    · obtain rfl : l = l' := by simpa using h
      exact List.suffix_refl _

/-- The string-literal loop consumes from the front only. -/
theorem strLoop_suffix (fuel : Nat) :
    ∀ (endc : Char) (acc : String) (l : Lexer) (s : String) (l' : Lexer),
      strLoop fuel endc acc l = some (.ok (s, l')) → l'.text <:+ l.text := by
  induction fuel with
  | zero => intro endc acc l s l' h; exact absurd h (by simp [strLoop])
  | succ n ih =>
    intro endc acc l s l' h
    rw [strLoop] at h
    split at h
    · obtain ⟨rfl, rfl⟩ := by simpa using h
      exact List.suffix_refl _
    · split at h
      · obtain ⟨rfl, rfl⟩ := by simpa using h
        exact List.suffix_refl _
      · split at h
        · split at h
          · exact Option.noConfusion h
          · split at h
            · exact absurd h (by simp)
            · rename_i l1 c1 l2 hadv2
              rename_i c0 l1' hadv1
              have base : l2.text <:+ l.text :=
                ((advance_suffix _ _ _ hadv2).1).trans (advance_suffix _ _ _ hadv1).1
              split at h
              · exact ((ih _ _ _ _ _ h).trans (advanceSkip_suffix _)).trans base
              · split at h
                · exact ((ih _ _ _ _ _ h).trans (advanceSkip_suffix _)).trans base
                · split at h
                  · exact ((ih _ _ _ _ _ h).trans (advanceSkip_suffix _)).trans base
                  · split at h
                    · split at h
                      · rename_i num ppos l3 heqTake
                        have htk : l3.text <:+ l2.text := by
                          have := takeLoop_suffix Char.isDigit l2.text l2.ln l2.col
                            (String.singleton c1) l2.pos
                          rw [heqTake] at this
                          exact this
                        split at h
                        · refine ((ih _ _ _ _ _ h).trans (advanceSkip_suffix _)).trans ?_
                          exact htk.trans base
                        · exact absurd h (by simp)
                    · exact ((ih _ _ _ _ _ h).trans (advanceSkip_suffix _)).trans base
        · rename_i c0 crest heq hc hbs
          refine (ih _ _ _ _ _ h).trans ((advanceSkip_suffix _).trans (List.suffix_refl _))

/-- Skipping the ignored `advance` result on a nonempty text drops exactly
the head character. -/
theorem advanceSkip_cons (l : Lexer) (c : Char) (xs : List Char)
    (h : l.text = c :: xs) : (advanceSkip l).text = xs := by
  unfold advanceSkip Lexer.advance
  rw [h]
  by_cases hc : c = '\n' <;> simp [hc]

/-- A successful `nextCore` consumes at least one character from the front. -/
theorem nextCore_suffix (l2 : Lexer) (t : Located Token) (l' : Lexer)
    (h : nextCore l2 = some (.ok (t, l'))) :
    l'.text <:+ l2.text ∧ l'.text.length < l2.text.length := by
  simp only [nextCore] at h
  split at h
  · exact Option.noConfusion h
  · rename_i c l3 hadv
    obtain ⟨hs3, hl3⟩ := advance_suffix _ _ _ hadv
    have single : ∀ (tv : Token) (p : Position),
        (some (Except.ok (⟨tv, p⟩, l3)) :
          Option (Except (Located LexError) (Located Token × Lexer))) =
          some (Except.ok (t, l')) →
        l'.text <:+ l2.text ∧ l'.text.length < l2.text.length := by
      intro tv p hh
      cases hh
      exact ⟨hs3, hl3⟩
    by_cases h1 : c = '(' ; · rw [if_pos h1] at h; exact single _ _ h
    rw [if_neg h1] at h
    by_cases h2 : c = ')' ; · rw [if_pos h2] at h; exact single _ _ h
    rw [if_neg h2] at h
    by_cases h3 : c = '[' ; · rw [if_pos h3] at h; exact single _ _ h
    rw [if_neg h3] at h
    by_cases h4 : c = ']' ; · rw [if_pos h4] at h; exact single _ _ h
    rw [if_neg h4] at h
    by_cases h5 : c = '{' ; · rw [if_pos h5] at h; exact single _ _ h
    rw [if_neg h5] at h
    by_cases h6 : c = '}' ; · rw [if_pos h6] at h; exact single _ _ h
    rw [if_neg h6] at h
    by_cases h7 : c = '=' ; · rw [if_pos h7] at h; exact single _ _ h
    rw [if_neg h7] at h
    by_cases h8 : c = ';' ; · rw [if_pos h8] at h; exact single _ _ h
    rw [if_neg h8] at h
    by_cases h9 : c = '.' ; · rw [if_pos h9] at h; exact single _ _ h
    rw [if_neg h9] at h
    by_cases h10 : (c = '"' ∨ c = '\'')
    · rw [if_pos h10] at h
      split at h
      · exact Option.noConfusion h
      · exact absurd h (by simp)
      · rename_i s l4 heqS
        have hs4 : l4.text <:+ l3.text := strLoop_suffix _ _ _ _ _ _ heqS
        split at h
        · rename_i c2 rest heq4
          split at h
          · obtain ⟨rfl, rfl⟩ : (⟨Token.String s, _⟩ : Located Token) = t ∧
                (⟨rest, l4.ln, l4.col⟩ : Lexer) = l' := by
              constructor
              · exact congrArg (fun r => match r with
                  | some (Except.ok (a, _)) => a
                  | _ => ⟨Token.Dot, Position.dflt⟩) h
              · exact congrArg (fun r => match r with
                  | some (Except.ok (_, b)) => b
                  | _ => ⟨[], 0, 0⟩) h
            constructor
            · refine List.IsSuffix.trans ?_ (hs4.trans hs3)
              rw [heq4]
              exact List.suffix_cons c2 rest
            · have hle : l4.text.length ≤ l3.text.length := hs4.length_le
              simp only [heq4, List.length_cons] at hle
              simp only [Lexer.text]
              omega
          · exact absurd h (by simp)
        · exact absurd h (by simp)
    rw [if_neg h10] at h
    by_cases h11 : c.isDigit = true
    · rw [if_pos h11] at h
      rcases hT : takeLoop Char.isDigit l3.text l3.ln l3.col (String.singleton c) l2.pos
        with ⟨num, pos2, l4⟩
      rw [hT] at h
      dsimp only at h
      have hs4 : l4.text <:+ l3.text := by
        have := takeLoop_suffix Char.isDigit l3.text l3.ln l3.col
          (String.singleton c) l2.pos
        rw [hT] at this
        exact this
      split at h
      · rename_i heq4
        rcases hT2 : takeLoop Char.isDigit (advanceSkip l4).text (advanceSkip l4).ln
            (advanceSkip l4).col (num.push '.') (pos2.extend l4.pos)
          with ⟨num2, pos4, l6⟩
        rw [hT2] at h
        dsimp only at h
        have hs6 : l6.text <:+ (advanceSkip l4).text := by
          have := takeLoop_suffix Char.isDigit (advanceSkip l4).text
            (advanceSkip l4).ln (advanceSkip l4).col (num.push '.')
            (pos2.extend l4.pos)
          rw [hT2] at this
          exact this
        have hdrop : (advanceSkip l4).text = List.tail l4.text := by
          rw [advanceSkip_cons l4 '.' (List.tail l4.text) (by rw [heq4]; rfl)]
        cases h
        constructor
        · refine ((hs6.trans ?_).trans hs4).trans hs3
          rw [hdrop, heq4]
          exact List.suffix_cons '.' _
        · have hA := hs6.length_le
          have hB := hs4.length_le
          rw [hdrop, heq4] at hA
          simp only [List.length_cons, List.tail_cons] at hA
          simp only [heq4, List.length_cons] at hB
          omega
      · split at h
        · cases h
          exact ⟨hs4.trans hs3, lt_of_le_of_lt hs4.length_le hl3⟩
        · exact absurd h (by simp)
    rw [if_neg h11] at h
    by_cases h12 : c.isAlphanum = true
    · rw [if_pos h12] at h
      rcases hT : takeLoop Char.isAlphanum l3.text l3.ln l3.col (String.singleton c) l2.pos
        with ⟨ident, pos2, l4⟩
      rw [hT] at h
      dsimp only at h
      have hs4 : l4.text <:+ l3.text := by
        have := takeLoop_suffix Char.isAlphanum l3.text l3.ln l3.col
          (String.singleton c) l2.pos
        rw [hT] at this
        exact this
      cases h
      exact ⟨hs4.trans hs3, lt_of_le_of_lt hs4.length_le hl3⟩
    rw [if_neg h12] at h
    exact absurd h (by simp)

/-- A successful `Lexer::next` consumes at least one character from the
front of the text. -/
theorem next_suffix (l : Lexer) (t : Located Token) (l' : Lexer)
    (h : l.next = some (.ok (t, l'))) :
    l'.text <:+ l.text ∧ l'.text.length < l.text.length := by
  simp only [Lexer.next] at h
  split at h
  · exact Option.noConfusion h
  · rename_i l2 hcl
    have h2 : l2.text <:+ l.text :=
      (commentLoop_suffix _ _ _ hcl).trans (skipWs_suffix _ _ _)
    obtain ⟨ha, hb⟩ := nextCore_suffix _ _ _ h
    exact ⟨ha.trans h2, lt_of_lt_of_le hb h2.length_le⟩

/-- A string-loop result with spans and error locations stripped. -/
def stripSL (r : Option (Except (Located LexError) (String × Lexer))) :
    Option (Except LexError (String × List Char)) :=
  match r with
  | none => none
  | some (.error e) => some (.error e.value)
  | some (.ok (s, l)) => some (.ok (s, l.text))

/-- A `next` result with spans and error locations stripped. -/
def stripNext (r : Option (Except (Located LexError) (Located Token × Lexer))) :
    Option (Except LexError (Token × List Char)) :=
  match r with
  | none => none
  | some (.error e) => some (.error e.value)
  | some (.ok (t, l)) => some (.ok (t.value, l.text))

/-- `advanceSkip` only looks at the text. -/
theorem advanceSkip_agree (l1 l2 : Lexer) (h : l1.text = l2.text) :
    (advanceSkip l1).text = (advanceSkip l2).text := by
  rcases hx : l1.text with _ | ⟨c, xs⟩
  · have h2 : l2.text = [] := by rw [← h, hx]
    unfold advanceSkip Lexer.advance
    rw [hx, h2]
    exact h
  · rw [advanceSkip_cons l1 c xs hx, advanceSkip_cons l2 c xs (h ▸ hx)]

/-- The characters dropped by `skip_whitespace` depend only on the text. -/
theorem skipWs_agree (cs : List Char) :
    ∀ ln col ln2 col2, (skipWs cs ln col).text = (skipWs cs ln2 col2).text := by
  induction cs with
  | nil => intro ln col ln2 col2; rfl
  | cons c rest ih =>
    intro ln col ln2 col2
    rw [skipWs, skipWs]
    by_cases hw : isAsciiWhitespace c = true
    · rw [if_pos hw, if_pos hw]
      by_cases hn : c = '\n'
      · rw [if_pos hn, if_pos hn]; exact ih _ _ _ _
      · rw [if_neg hn, if_neg hn]; exact ih _ _ _ _
    · rw [if_neg hw, if_neg hw]

/-- The characters dropped by the comment-line loop depend only on the
text. -/
theorem dropLine_agree (cs : List Char) :
    ∀ ln col ln2 col2, (dropLine cs ln col).text = (dropLine cs ln2 col2).text := by
  induction cs with
  | nil => intro ln col ln2 col2; rfl
  | cons c rest ih =>
    intro ln col ln2 col2
    rw [dropLine, dropLine]
    by_cases hn : c = '\n'
    · rw [if_pos hn, if_pos hn]
    · rw [if_neg hn, if_neg hn]; exact ih _ _ _ _

/-- The collected string and the remaining text of the collect-while loop
depend only on the text. -/
theorem takeLoop_agree (p : Char → Bool) (cs : List Char) :
    ∀ ln col ln2 col2 acc pos pos2,
      (takeLoop p cs ln col acc pos).1 = (takeLoop p cs ln2 col2 acc pos2).1 ∧
      (takeLoop p cs ln col acc pos).2.2.text = (takeLoop p cs ln2 col2 acc pos2).2.2.text := by
  induction cs with
  | nil => intro ln col ln2 col2 acc pos pos2; exact ⟨rfl, rfl⟩
  | cons c rest ih =>
    intro ln col ln2 col2 acc pos pos2
    rw [takeLoop, takeLoop]
    by_cases hp : p c = true
    · rw [if_pos hp, if_pos hp]; exact ih _ _ _ _ _ _ _
    · rw [if_neg hp, if_neg hp]; exact ⟨rfl, rfl⟩

/-- `advance` on a nonempty text yields its head and tail. -/
theorem advance_cons (l : Lexer) (a : Char) (arest : List Char)
    (h : l.text = a :: arest) :
    ∃ ln2 col2, l.advance = some (a, ⟨arest, ln2, col2⟩) := by
  unfold Lexer.advance
  rw [h]
  by_cases ha : a = '\n'
  · exact ⟨l.ln + 1, 0, by dsimp only; rw [if_pos ha]⟩
  · exact ⟨l.ln, l.col + 1, by dsimp only; rw [if_neg ha]⟩

/-- The characters dropped by the comment loop depend only on the text, for
any sufficient fuel. -/
theorem commentLoop_agree (f1 : Nat) :
    ∀ (f2 : Nat) (l1 l2 : Lexer), l1.text = l2.text →
      l1.text.length < f1 → l2.text.length < f2 →
      Option.map Lexer.text (commentLoop f1 l1) =
        Option.map Lexer.text (commentLoop f2 l2) := by
  induction f1 using Nat.strong_induction_on with
  | _ f1 ih =>
    intro f2 l1 l2 h hf1 hf2
    cases f1 with
    | zero => omega
    | succ m =>
    cases f2 with
    | zero => omega
    | succ k =>
    simp only [commentLoop]
    rcases hx : l1.text with _ | ⟨c0, tail⟩
    · have h2 : l2.text = [] := by rw [← h, hx]
      rw [h2]
      simp [h]
    · have h2 : l2.text = c0 :: tail := by rw [← h, hx]
      rw [h2]
      by_cases hc : c0 = '#'
      · subst hc
        have hd : (dropLine ('#' :: tail) l1.ln l1.col).text =
            (dropLine ('#' :: tail) l2.ln l2.col).text :=
          dropLine_agree _ _ _ _ _
        have hdsuf : (dropLine ('#' :: tail) l1.ln l1.col).text <:+ '#' :: tail :=
          dropLine_suffix _ _ _
        rcases hdt : (dropLine ('#' :: tail) l1.ln l1.col).text with _ | ⟨a, arest⟩
        · have hdt2 : (dropLine ('#' :: tail) l2.ln l2.col).text = [] := by
            rw [← hd, hdt]
          have hadv : (dropLine ('#' :: tail) l1.ln l1.col).advance = none := by
            unfold Lexer.advance
            rw [hdt]
          have hadv2 : (dropLine ('#' :: tail) l2.ln l2.col).advance = none := by
            unfold Lexer.advance
            rw [hdt2]
          rw [hadv, hadv2]
          rfl
        · have hdt2 : (dropLine ('#' :: tail) l2.ln l2.col).text = a :: arest := by
            rw [← hd, hdt]
          obtain ⟨lnA, colA, hadv⟩ := advance_cons _ _ _ hdt
          obtain ⟨lnB, colB, hadv2⟩ := advance_cons _ _ _ hdt2
          rw [hadv, hadv2]
          have harest : arest.length < m ∧ arest.length < k := by
            have h1 := hdsuf.length_le
            rw [hdt] at h1
            simp only [List.length_cons] at h1
            rw [hx] at hf1
            rw [h2] at hf2
            simp only [List.length_cons] at hf1 hf2
            omega
          refine ih m (by omega) k (skipWs arest lnA colA) (skipWs arest lnB colB)
            (skipWs_agree arest lnA colA lnB colB) ?_ ?_
          · exact lt_of_le_of_lt (skipWs_suffix arest lnA colA).length_le harest.1
          · exact lt_of_le_of_lt (skipWs_suffix arest lnB colB).length_le harest.2
      · split
        · rename_i x heqq
          exact absurd (List.head_eq_of_cons_eq heqq) hc
        · simp [h]

/-- The scanned string, consumed characters and error kind of the
string-literal loop depend only on the text, for any sufficient fuel. -/
theorem strLoop_agree (f1 : Nat) :
    ∀ (f2 : Nat) (endc : Char) (acc : String) (l1 l2 : Lexer), l1.text = l2.text →
      l1.text.length < f1 → l2.text.length < f2 →
      stripSL (strLoop f1 endc acc l1) = stripSL (strLoop f2 endc acc l2) := by
  induction f1 using Nat.strong_induction_on with
  | _ f1 ih =>
    intro f2 endc acc l1 l2 h hf1 hf2
    cases f1 with
    | zero => omega
    | succ m =>
    cases f2 with
    | zero => omega
    | succ k =>
    simp only [strLoop]
    rcases hx : l1.text with _ | ⟨c, xs⟩
    · have h2 : l2.text = [] := by rw [← h, hx]
      rw [h2]
      simp [stripSL, h]
    · have h2 : l2.text = c :: xs := by rw [← h, hx]
      rw [h2]
      dsimp only
      have hlen1 : xs.length + 1 < m + 1 := by rw [hx] at hf1; simpa using hf1
      have hlen2 : xs.length + 1 < k + 1 := by rw [h2] at hf2; simpa using hf2
      by_cases hce : c = endc
      · rw [if_pos hce, if_pos hce]
        simp [stripSL, h]
      rw [if_neg hce, if_neg hce]
      by_cases hcb : c = '\\'
      · rw [if_pos hcb, if_pos hcb]
        obtain ⟨lnA, colA, hadvA⟩ := advance_cons l1 c xs hx
        obtain ⟨lnB, colB, hadvB⟩ := advance_cons l2 c xs h2
        rw [hadvA, hadvB]
        dsimp only
        rcases xs with _ | ⟨e, ys⟩
        · simp [Lexer.advance, stripSL]
        · obtain ⟨lnA2, colA2, hA2⟩ :=
            advance_cons (⟨e :: ys, lnA, colA⟩ : Lexer) e ys rfl
          obtain ⟨lnB2, colB2, hB2⟩ :=
            advance_cons (⟨e :: ys, lnB, colB⟩ : Lexer) e ys rfl
          rw [hA2, hB2]
          dsimp only
          have hys1 : ys.length < m := by simp at hlen1; omega
          have hys2 : ys.length < k := by simp at hlen2; omega
          have hrec : ∀ (acc2 : String) (la lb : Lexer), la.text = lb.text →
              la.text.length ≤ ys.length →
              stripSL (strLoop m endc acc2 la) = stripSL (strLoop k endc acc2 lb) := by
            intro acc2 la lb ht hl
            refine ih m (by omega) k endc acc2 la lb ht (by omega) ?_
            rw [← ht] at *
            omega
          by_cases hn : e = 'n'
          · rw [if_pos hn, if_pos hn]
            refine hrec _ _ _ (advanceSkip_agree _ _ rfl) ?_
            have := advanceSkip_suffix (⟨ys, lnA2, colA2⟩ : Lexer)
            exact this.length_le
          rw [if_neg hn, if_neg hn]
          by_cases htt : e = 't'
          · rw [if_pos htt, if_pos htt]
            refine hrec _ _ _ (advanceSkip_agree _ _ rfl) ?_
            exact (advanceSkip_suffix (⟨ys, lnA2, colA2⟩ : Lexer)).length_le
          rw [if_neg htt, if_neg htt]
          by_cases hr : e = 'r'
          · rw [if_pos hr, if_pos hr]
            refine hrec _ _ _ (advanceSkip_agree _ _ rfl) ?_
            exact (advanceSkip_suffix (⟨ys, lnA2, colA2⟩ : Lexer)).length_le
          rw [if_neg hr, if_neg hr]
          by_cases hd : e.isDigit = true
          · rw [if_pos hd, if_pos hd]
            rcases hTA : takeLoop Char.isDigit ys lnA2 colA2 (String.singleton e)
                (Lexer.pos ⟨ys, lnA2, colA2⟩) with ⟨numA, pA, lA3⟩
            rcases hTB : takeLoop Char.isDigit ys lnB2 colB2 (String.singleton e)
                (Lexer.pos ⟨ys, lnB2, colB2⟩) with ⟨numB, pB, lB3⟩
            have hag := takeLoop_agree Char.isDigit ys lnA2 colA2 lnB2 colB2
              (String.singleton e) (Lexer.pos ⟨ys, lnA2, colA2⟩) (Lexer.pos ⟨ys, lnB2, colB2⟩)
            rw [hTA, hTB] at hag
            obtain ⟨hnum, htext3⟩ := hag
            dsimp only at hnum htext3 ⊢
            rw [← hnum]
            have hsufA : lA3.text <:+ ys := by
              have := takeLoop_suffix Char.isDigit ys lnA2 colA2 (String.singleton e)
                (Lexer.pos ⟨ys, lnA2, colA2⟩)
              rw [hTA] at this
              exact this
            rcases hpu : parseU8 numA with _ | v
            · simp [stripSL]
            · refine hrec _ _ _ (advanceSkip_agree _ _ htext3) ?_
              exact le_trans (advanceSkip_suffix lA3).length_le hsufA.length_le
          rw [if_neg hd, if_neg hd]
          refine hrec _ _ _ (advanceSkip_agree _ _ rfl) ?_
          exact (advanceSkip_suffix (⟨ys, lnA2, colA2⟩ : Lexer)).length_le
      · rw [if_neg hcb, if_neg hcb]
        have hA : (advanceSkip l1).text = xs := advanceSkip_cons l1 c xs hx
        have hB : (advanceSkip l2).text = xs := advanceSkip_cons l2 c xs h2
        refine ih m (by omega) k endc (acc.push c) _ _ (by rw [hA, hB]) ?_ ?_
        · rw [hA]; omega
        · rw [hB]; omega

/-- The token value, consumed characters and error kind of the dispatch
depend only on the text. -/
theorem nextCore_agree (l1 l2 : Lexer) (h : l1.text = l2.text) :
    stripNext (nextCore l1) = stripNext (nextCore l2) := by
  simp only [nextCore]
  rcases hx : l1.text with _ | ⟨c, xs⟩
  · have h2 : l2.text = [] := by rw [← h, hx]
    have hadvA : l1.advance = none := by unfold Lexer.advance; rw [hx]
    have hadvB : l2.advance = none := by unfold Lexer.advance; rw [h2]
    rw [hadvA, hadvB]
  · have h2 : l2.text = c :: xs := by rw [← h, hx]
    obtain ⟨lnA, colA, hadvA⟩ := advance_cons l1 c xs hx
    obtain ⟨lnB, colB, hadvB⟩ := advance_cons l2 c xs h2
    rw [hadvA, hadvB]
    dsimp only
    have hsingle : ∀ (tv : Token) (pa pb : Position),
        stripNext (some (.ok (⟨tv, pa⟩, (⟨xs, lnA, colA⟩ : Lexer)))) =
          stripNext (some (.ok (⟨tv, pb⟩, (⟨xs, lnB, colB⟩ : Lexer)))) := by
      intro tv pa pb
      simp [stripNext]
    by_cases h1 : c = '(' ; · rw [if_pos h1, if_pos h1]; exact hsingle _ _ _
    rw [if_neg h1, if_neg h1]
    by_cases hq2 : c = ')' ; · rw [if_pos hq2, if_pos hq2]; exact hsingle _ _ _
    rw [if_neg hq2, if_neg hq2]
    by_cases h3 : c = '[' ; · rw [if_pos h3, if_pos h3]; exact hsingle _ _ _
    rw [if_neg h3, if_neg h3]
    by_cases h4 : c = ']' ; · rw [if_pos h4, if_pos h4]; exact hsingle _ _ _
    rw [if_neg h4, if_neg h4]
    by_cases h5 : c = '{' ; · rw [if_pos h5, if_pos h5]; exact hsingle _ _ _
    rw [if_neg h5, if_neg h5]
    by_cases h6 : c = '}' ; · rw [if_pos h6, if_pos h6]; exact hsingle _ _ _
    rw [if_neg h6, if_neg h6]
    by_cases h7 : c = '=' ; · rw [if_pos h7, if_pos h7]; exact hsingle _ _ _
    rw [if_neg h7, if_neg h7]
    by_cases h8 : c = ';' ; · rw [if_pos h8, if_pos h8]; exact hsingle _ _ _
    rw [if_neg h8, if_neg h8]
    by_cases h9 : c = '.' ; · rw [if_pos h9, if_pos h9]; exact hsingle _ _ _
    rw [if_neg h9, if_neg h9]
    by_cases h10 : (c = '"' ∨ c = '\'')
    · rw [if_pos h10, if_pos h10]
      have hagree := strLoop_agree (xs.length + 1) (xs.length + 1) c ""
        ⟨xs, lnA, colA⟩ ⟨xs, lnB, colB⟩ rfl (by simp) (by simp)
      rcases hSA : strLoop (xs.length + 1) c "" ⟨xs, lnA, colA⟩ with _ | eA
      · rcases hSB : strLoop (xs.length + 1) c "" ⟨xs, lnB, colB⟩ with _ | eB
        · rfl
        · rw [hSA, hSB] at hagree
          rcases eB with eB | ⟨sB, l4B⟩ <;> simp [stripSL] at hagree
      · rcases hSB : strLoop (xs.length + 1) c "" ⟨xs, lnB, colB⟩ with _ | eB
        · rw [hSA, hSB] at hagree
          rcases eA with eA | ⟨sA, l4A⟩ <;> simp [stripSL] at hagree
        · rw [hSA, hSB] at hagree
          rcases eA with eA | ⟨sA, l4A⟩ <;> rcases eB with eB | ⟨sB, l4B⟩
          · simp only [stripSL] at hagree
            simp only [stripNext]
            simpa using hagree
          · simp [stripSL] at hagree
          · simp [stripSL] at hagree
          · simp only [stripSL] at hagree
            obtain ⟨hs, ht⟩ : sA = sB ∧ l4A.text = l4B.text := by simpa using hagree
            subst hs
            dsimp only
            rcases hta : l4A.text with _ | ⟨c2, rest⟩
            · have htb : l4B.text = [] := by rw [← ht, hta]
              rw [htb]
              simp [stripNext]
            · have htb : l4B.text = c2 :: rest := by rw [← ht, hta]
              rw [htb]
              dsimp only
              by_cases hc2 : c2 = c
              · rw [if_pos hc2, if_pos hc2]
                simp [stripNext]
              · rw [if_neg hc2, if_neg hc2]
                simp [stripNext]
    rw [if_neg h10, if_neg h10]
    by_cases h11 : c.isDigit = true
    · rw [if_pos h11, if_pos h11]
      rcases hTA : takeLoop Char.isDigit xs lnA colA (String.singleton c) l1.pos
        with ⟨numA, pA, lA4⟩
      rcases hTB : takeLoop Char.isDigit xs lnB colB (String.singleton c) l2.pos
        with ⟨numB, pB, lB4⟩
      have hag := takeLoop_agree Char.isDigit xs lnA colA lnB colB
        (String.singleton c) l1.pos l2.pos
      rw [hTA, hTB] at hag
      obtain ⟨hnum, htext⟩ := hag
      dsimp only at hnum htext ⊢
      subst hnum
      rcases hta : lA4.text with _ | ⟨d, drest⟩
      · have htb : lB4.text = [] := by rw [← htext, hta]
        rw [htb]
        rcases hpi : parseI64 numA with _ | v
        · simp [stripNext]
        · simp [stripNext, htext]
      · have htb : lB4.text = d :: drest := by rw [← htext, hta]
        rw [htb]
        by_cases hdot : d = '.'
        · subst hdot
          have hskA : (advanceSkip lA4).text = drest := advanceSkip_cons _ _ _ hta
          have hskB : (advanceSkip lB4).text = drest := advanceSkip_cons _ _ _ htb
          rcases hTA2 : takeLoop Char.isDigit (advanceSkip lA4).text (advanceSkip lA4).ln
              (advanceSkip lA4).col (numA.push '.') (pA.extend lA4.pos)
            with ⟨numA2, pA2, lA5⟩
          rcases hTB2 : takeLoop Char.isDigit (advanceSkip lB4).text (advanceSkip lB4).ln
              (advanceSkip lB4).col (numA.push '.') (pB.extend lB4.pos)
            with ⟨numB2, pB2, lB5⟩
          have hag2 := takeLoop_agree Char.isDigit drest (advanceSkip lA4).ln
            (advanceSkip lA4).col (advanceSkip lB4).ln (advanceSkip lB4).col
            (numA.push '.') (pA.extend lA4.pos) (pB.extend lB4.pos)
          rw [hskA] at hTA2
          rw [hskB] at hTB2
          rw [hTA2, hTB2] at hag2
          obtain ⟨hnum2, htext2⟩ := hag2
          dsimp only at hnum2 htext2 ⊢
          simp [stripNext, hnum2, htext2]
        · split
          · rename_i tl heqq
            exact absurd (List.head_eq_of_cons_eq heqq) hdot
          · rcases hpi : parseI64 numA with _ | v
            · simp [stripNext]
            · simp [stripNext, htext]
    rw [if_neg h11, if_neg h11]
    by_cases h12 : c.isAlphanum = true
    · rw [if_pos h12, if_pos h12]
      rcases hTA : takeLoop Char.isAlphanum xs lnA colA (String.singleton c) l1.pos
        with ⟨idA, pA, lA4⟩
      rcases hTB : takeLoop Char.isAlphanum xs lnB colB (String.singleton c) l2.pos
        with ⟨idB, pB, lB4⟩
      have hag := takeLoop_agree Char.isAlphanum xs lnA colA lnB colB
        (String.singleton c) l1.pos l2.pos
      rw [hTA, hTB] at hag
      obtain ⟨hnum, htext⟩ := hag
      dsimp only at hnum htext ⊢
      simp [stripNext, hnum, htext]
    rw [if_neg h12, if_neg h12]
    simp [stripNext]

/-- The token value, consumed characters and error kind of `Lexer::next`
depend only on the text. -/
theorem next_agree (l1 l2 : Lexer) (h : l1.text = l2.text) :
    stripNext l1.next = stripNext l2.next := by
  simp only [Lexer.next]
  have hsw : (skipWs l1.text l1.ln l1.col).text = (skipWs l2.text l2.ln l2.col).text := by
    rw [h]; exact skipWs_agree _ _ _ _ _
  have hcl := commentLoop_agree ((skipWs l1.text l1.ln l1.col).text.length + 1)
    ((skipWs l2.text l2.ln l2.col).text.length + 1)
    (skipWs l1.text l1.ln l1.col) (skipWs l2.text l2.ln l2.col) hsw
    (by omega) (by omega)
  rcases hc1 : commentLoop ((skipWs l1.text l1.ln l1.col).text.length + 1)
      (skipWs l1.text l1.ln l1.col) with _ | lA
  · rcases hc2 : commentLoop ((skipWs l2.text l2.ln l2.col).text.length + 1)
        (skipWs l2.text l2.ln l2.col) with _ | lB
    · rfl
    · rw [hc1, hc2] at hcl
      exact absurd hcl (by simp)
  · rcases hc2 : commentLoop ((skipWs l2.text l2.ln l2.col).text.length + 1)
        (skipWs l2.text l2.ln l2.col) with _ | lB
    · rw [hc1, hc2] at hcl
      exact absurd hcl (by simp)
    · rw [hc1, hc2] at hcl
      simp only [Option.map_some', Option.some.injEq] at hcl
      exact nextCore_agree lA lB hcl

/-- The token values and error kind of a full lex depend only on the text,
for any sufficient fuel. -/
theorem lexGo_agree (f1 : Nat) :
    ∀ (f2 : Nat) (l1 l2 : Lexer), l1.text = l2.text →
      l1.text.length < f1 → l2.text.length < f2 →
      stripRes (lexGo f1 l1) = stripRes (lexGo f2 l2) := by
  induction f1 using Nat.strong_induction_on with
  | _ f1 ih =>
    intro f2 l1 l2 h hf1 hf2
    cases f1 with
    | zero => omega
    | succ m =>
    cases f2 with
    | zero => omega
    | succ k =>
    simp only [lexGo]
    have hna := next_agree l1 l2 h
    rcases hn1 : l1.next with _ | r1
    · rcases hn2 : l2.next with _ | r2
      · rfl
      · rw [hn1, hn2] at hna
        rcases r2 with e2 | ⟨t2, l2'⟩ <;> simp [stripNext] at hna
    · rcases hn2 : l2.next with _ | r2
      · rw [hn1, hn2] at hna
        rcases r1 with e1 | ⟨t1, l1'⟩ <;> simp [stripNext] at hna
      · rw [hn1, hn2] at hna
        rcases r1 with e1 | ⟨t1, l1'⟩ <;> rcases r2 with e2 | ⟨t2, l2'⟩
        · simp only [stripNext, Option.some.injEq, Except.error.injEq] at hna
          simp [stripRes, hna]
        · simp [stripNext] at hna
        · simp [stripNext] at hna
        · simp only [stripNext, Option.some.injEq, Except.ok.injEq, Prod.mk.injEq] at hna
          obtain ⟨hval, htext⟩ := hna
          obtain ⟨-, hlen1'⟩ := next_suffix _ _ _ hn1
          obtain ⟨-, hlen2'⟩ := next_suffix _ _ _ hn2
          have hrec := ih m (by omega) k l1' l2' htext (by omega) (by omega)
          dsimp only
          rcases hg1 : lexGo m l1' with _ | g1
          · rcases hg2 : lexGo k l2' with _ | g2
            · rfl
            · rw [hg1, hg2] at hrec
              rcases g2 with e | ts <;> simp [stripRes] at hrec
          · rcases hg2 : lexGo k l2' with _ | g2
            · rw [hg1, hg2] at hrec
              rcases g1 with e | ts <;> simp [stripRes] at hrec
            · rw [hg1, hg2] at hrec
              rcases g1 with e | ts1 <;> rcases g2 with e2 | ts2
              · simp only [stripRes, Option.some.injEq, Except.error.injEq] at hrec
                simp [stripRes, hrec]
              · simp [stripRes] at hrec
              · simp [stripRes] at hrec
              · simp only [stripRes, Option.some.injEq, Except.ok.injEq] at hrec
                simp [stripRes, hrec, hval]

/-- Split a list along a known suffix. -/
theorem suffix_split {Y zs : List Char} (h : Y <:+ zs) : ∃ v, zs = v ++ Y := by
  obtain ⟨v, hv⟩ := h
  exact ⟨v, hv.symm⟩

/-- A nonempty head part when the suffix is strictly shorter. -/
theorem suffix_split_ne {Y zs : List Char} (h : Y <:+ zs)
    (hlen : Y.length < zs.length) : ∃ a v, zs = a :: v ++ Y := by
  obtain ⟨v, hv⟩ := suffix_split h
  cases v with
  | nil => rw [hv] at hlen; simp at hlen
  | cons a v => exact ⟨a, v, hv⟩

/-- Whitespace skipping that stops strictly inside the prefix is unaffected
by replacing the suffix. -/
theorem skipWs_ext (u : List Char) :
    ∀ (Y : List Char) (ln col : Nat) (w : List Char) (ln2 col2 : Nat),
      skipWs (u ++ Y) ln col = ⟨w ++ Y, ln2, col2⟩ → w ≠ [] →
      ∀ (Y' : List Char) (ln' col' : Nat), ∃ ln2' col2',
        skipWs (u ++ Y') ln' col' = ⟨w ++ Y', ln2', col2'⟩ := by
  induction u with
  | nil =>
    intro Y ln col w ln2 col2 hrun hw Y' ln' col'
    exfalso
    rw [List.nil_append] at hrun
    have hsuf := skipWs_suffix Y ln col
    rw [hrun] at hsuf
    have hlen := hsuf.length_le
    rw [List.length_append] at hlen
    exact hw (List.length_eq_zero.mp (by omega))
  | cons c u2 ih =>
    intro Y ln col w ln2 col2 hrun hw Y' ln' col'
    rw [List.cons_append, skipWs] at hrun
    by_cases hws : isAsciiWhitespace c = true
    · rw [if_pos hws] at hrun
      by_cases hn : c = '\n'
      · rw [if_pos hn] at hrun
        obtain ⟨a, b, hres⟩ := ih Y _ _ w _ _ hrun hw Y' (ln' + 1) 0
        refine ⟨a, b, ?_⟩
        rw [List.cons_append, skipWs, if_pos hws, if_pos hn]
        exact hres
      · rw [if_neg hn] at hrun
        obtain ⟨a, b, hres⟩ := ih Y _ _ w _ _ hrun hw Y' ln' (col' + 1)
        refine ⟨a, b, ?_⟩
        rw [List.cons_append, skipWs, if_pos hws, if_neg hn]
        exact hres
    · rw [if_neg hws] at hrun
      obtain ⟨hteq, rfl, rfl⟩ : c :: (u2 ++ Y) = w ++ Y ∧ ln = ln2 ∧ col = col2 := by
        have h1 := congrArg Lexer.text hrun
        have h2 := congrArg Lexer.ln hrun
        have h3 := congrArg Lexer.col hrun
        exact ⟨h1, h2, h3⟩
      have hwc : w = c :: u2 := by
        have : (c :: u2) ++ Y = w ++ Y := by simpa using hteq
        exact (List.append_left_injective Y this).symm
      refine ⟨ln', col', ?_⟩
      rw [List.cons_append, skipWs, if_neg hws, hwc]
      rfl

/-- Comment-line skipping that stops strictly inside the prefix is
unaffected by replacing the suffix. -/
theorem dropLine_ext (u : List Char) :
    ∀ (Y : List Char) (ln col : Nat) (w : List Char) (ln2 col2 : Nat),
      dropLine (u ++ Y) ln col = ⟨w ++ Y, ln2, col2⟩ → w ≠ [] →
      ∀ (Y' : List Char) (ln' col' : Nat), ∃ ln2' col2',
        dropLine (u ++ Y') ln' col' = ⟨w ++ Y', ln2', col2'⟩ := by
  induction u with
  | nil =>
    intro Y ln col w ln2 col2 hrun hw Y' ln' col'
    exfalso
    rw [List.nil_append] at hrun
    have hsuf := dropLine_suffix Y ln col
    rw [hrun] at hsuf
    have hlen := hsuf.length_le
    rw [List.length_append] at hlen
    exact hw (List.length_eq_zero.mp (by omega))
  | cons c u2 ih =>
    intro Y ln col w ln2 col2 hrun hw Y' ln' col'
    rw [List.cons_append, dropLine] at hrun
    by_cases hn : c = '\n'
    · rw [if_pos hn] at hrun
      obtain ⟨hteq, rfl, rfl⟩ : c :: (u2 ++ Y) = w ++ Y ∧ ln = ln2 ∧ col = col2 :=
        ⟨congrArg Lexer.text hrun, congrArg Lexer.ln hrun, congrArg Lexer.col hrun⟩
      have hwc : w = c :: u2 := by
        have : (c :: u2) ++ Y = w ++ Y := by simpa using hteq
        exact (List.append_left_injective Y this).symm
      refine ⟨ln', col', ?_⟩
      rw [List.cons_append, dropLine, if_pos hn, hwc]
      rfl
    · rw [if_neg hn] at hrun
      obtain ⟨a, b, hres⟩ := ih Y _ _ w _ _ hrun hw Y' ln' (col' + 1)
      refine ⟨a, b, ?_⟩
      rw [List.cons_append, dropLine, if_neg hn]
      exact hres

/-- The head of a replacement suffix must not continue a token scan. -/
def insertHeadOk (Y' : List Char) : Prop :=
  ∀ c r, Y' = c :: r → (c.isAlphanum = false ∧ c ≠ '.')

/-- A collect-while loop that stops inside the prefix, or at its very end
when the replacement suffix cannot continue it, is unaffected by replacing
the suffix; the collected string is unchanged. -/
theorem takeLoop_ext (p : Char → Bool) (u : List Char) :
    ∀ (Y : List Char) (ln col : Nat) (acc : String) (pos : Position)
      (res : String) (pos2 : Position) (l3 : Lexer) (w : List Char),
      takeLoop p (u ++ Y) ln col acc pos = (res, pos2, l3) → l3.text = w ++ Y →
      ∀ (Y' : List Char), (w = [] → ∀ c r, Y' = c :: r → p c = false) →
      ∀ (ln' col' : Nat) (pos' : Position), ∃ pos2' ln2' col2',
        takeLoop p (u ++ Y') ln' col' acc pos' = (res, pos2', ⟨w ++ Y', ln2', col2'⟩) := by
  induction u with
  | nil =>
    intro Y ln col acc pos res pos2 l3 w hrun htext Y' hok ln' col' pos'
    rw [List.nil_append] at hrun
    have hsuf := takeLoop_suffix p Y ln col acc pos
    rw [hrun] at hsuf
    dsimp only at hsuf
    rw [htext] at hsuf
    have hlen := hsuf.length_le
    rw [List.length_append] at hlen
    have hw : w = [] := List.length_eq_zero.mp (by omega)
    subst hw
    rw [List.nil_append] at htext
    have hres : res = acc := by
      cases Y with
      | nil =>
        simpa [takeLoop] using (congrArg (fun r => r.1) hrun).symm
      | cons d ys =>
        rw [takeLoop] at hrun
        by_cases hp : p d = true
        · exfalso
          rw [if_pos hp] at hrun
          have hsuf2 := takeLoop_suffix p ys ln (col + 1) (acc.push d)
            (pos.extend (Position.new ⟨ln, ln⟩ ⟨col, col + 1⟩))
          rw [hrun] at hsuf2
          dsimp only at hsuf2
          rw [htext] at hsuf2
          have := hsuf2.length_le
          simp at this
        · rw [if_neg hp] at hrun
          simpa using (congrArg (fun r => r.1) hrun).symm
    subst hres
    cases Y' with
    | nil =>
      refine ⟨pos', ln', col', ?_⟩
      simp [takeLoop]
    | cons c r =>
      have hpc : p c = false := hok rfl c r rfl
      refine ⟨pos', ln', col', ?_⟩
      rw [List.nil_append, takeLoop, if_neg (by simp [hpc])]
  | cons c u2 ih =>
    intro Y ln col acc pos res pos2 l3 w hrun htext Y' hok ln' col' pos'
    rw [List.cons_append, takeLoop] at hrun
    by_cases hp : p c = true
    · rw [if_pos hp] at hrun
      obtain ⟨pA, a, b, hres⟩ := ih Y _ _ _ _ res _ _ w hrun htext Y' hok ln' (col' + 1)
        (pos'.extend (Position.new ⟨ln', ln'⟩ ⟨col', col' + 1⟩))
      refine ⟨pA, a, b, ?_⟩
      rw [List.cons_append, takeLoop, if_pos hp]
      exact hres
    · rw [if_neg hp] at hrun
      obtain ⟨hres, hpos, hl3⟩ : acc = res ∧ pos = pos2 ∧
          (⟨c :: (u2 ++ Y), ln, col⟩ : Lexer) = l3 := by
        refine ⟨congrArg (fun r => r.1) hrun, ?_, ?_⟩
        · exact congrArg (fun r => r.2.1) hrun
        · exact congrArg (fun r => r.2.2) hrun
      subst hres
      have hwc : w = c :: u2 := by
        have h9 : (c :: u2) ++ Y = w ++ Y := by
          rw [← htext, ← hl3]
          rfl
        exact (List.append_left_injective Y h9).symm
      refine ⟨pos', ln', col', ?_⟩
      rw [List.cons_append, takeLoop, if_neg hp, hwc]
      rfl

/-- The comment-line loop stops only at a newline (or at end of input). -/
theorem dropLine_stops (cs : List Char) :
    ∀ ln col c0 rest, (dropLine cs ln col).text = c0 :: rest → c0 = '\n' := by
  induction cs with
  | nil =>
    intro ln col c0 rest h
    rw [dropLine] at h
    exact List.noConfusion h
  | cons c cs2 ih =>
    intro ln col c0 rest h
    rw [dropLine] at h
    by_cases hn : c = '\n'
    · rw [if_pos hn] at h
      have h2 : c :: cs2 = c0 :: rest := h
      rw [← List.head_eq_of_cons_eq h2]
      exact hn
    · rw [if_neg hn] at h
      exact ih _ _ _ _ h

/-- A comment-skipping run that ends strictly inside the prefix is
unaffected by replacing the suffix. -/
theorem commentLoop_ext (f : Nat) :
    ∀ (l : Lexer) (u Y : List Char) (lres : Lexer) (w : List Char),
      l.text = u ++ Y → commentLoop f l = some lres → lres.text = w ++ Y → w ≠ [] →
      ∀ (Y' : List Char) (f' : Nat) (l' : Lexer), l'.text = u ++ Y' →
        (u ++ Y').length < f' →
        ∃ lres', commentLoop f' l' = some lres' ∧ lres'.text = w ++ Y' := by
  induction f using Nat.strong_induction_on with
  | _ f ih =>
    intro l u Y lres w hl hrun hlres hw Y' f' l' hl' hflen
    cases f with
    | zero => exact absurd hrun (by simp [commentLoop])
    | succ m =>
    cases f' with
    | zero => exact absurd hflen (Nat.not_lt_zero _)
    | succ m' =>
    cases u with
    | nil =>
      exfalso
      have hsuf := commentLoop_suffix _ _ _ hrun
      rw [hl, hlres, List.nil_append] at hsuf
      have hle := hsuf.length_le
      rw [List.length_append] at hle
      exact hw (List.length_eq_zero.mp (by omega))
    | cons c u2 =>
      simp only [commentLoop] at hrun
      rw [hl, List.cons_append] at hrun
      by_cases hc : c = '#'
      · subst hc
        split at hrun
        · split at hrun
          · exact Option.noConfusion hrun
          · rename_i a lx hadv
            rcases hd : dropLine ('#' :: (u2 ++ Y)) l.ln l.col with ⟨dt, dln, dcol⟩
            rw [hd] at hadv
            have hdsuf : dt <:+ '#' :: (u2 ++ Y) := by
              have h0 := dropLine_suffix ('#' :: (u2 ++ Y)) l.ln l.col
              rw [hd] at h0
              exact h0
            cases dt with
            | nil => exact absurd hadv (by simp [Lexer.advance])
            | cons a0 drest =>
              have ha0 : a0 = '\n' :=
                dropLine_stops ('#' :: (u2 ++ Y)) l.ln l.col a0 drest (by rw [hd])
              subst ha0
              dsimp only [Lexer.advance] at hadv
              rw [if_pos rfl] at hadv
              cases hadv
              dsimp only at hrun
              have hclsuf := commentLoop_suffix _ _ _ hrun
              have hswsuf := skipWs_suffix drest (dln + 1) 0
              have hYlres : Y <:+ lres.text := by rw [hlres]; exact ⟨w, rfl⟩
              have hwpos : 0 < w.length := List.length_pos.mpr hw
              have hlenres : lres.text.length = w.length + Y.length := by
                rw [hlres, List.length_append]
              rcases hsw : skipWs drest (dln + 1) 0 with ⟨st, sln, scol⟩
              rw [hsw] at hrun hclsuf hswsuf
              dsimp only at hclsuf hswsuf
              have hYdrest : Y <:+ drest := (hYlres.trans hclsuf).trans hswsuf
              obtain ⟨v0, hdrest⟩ := suffix_split hYdrest
              have hYst : Y <:+ st := hYlres.trans hclsuf
              have hstlen : Y.length < st.length := by
                have := hclsuf.length_le
                omega
              obtain ⟨a1, s1, hst⟩ := suffix_split_ne hYst hstlen
              have hd2 : dropLine (('#' :: u2) ++ Y) l.ln l.col =
                  ⟨('\n' :: v0) ++ Y, dln, dcol⟩ := by
                rw [List.cons_append, hd, hdrest, List.cons_append]
              obtain ⟨da, db, hdY⟩ := dropLine_ext ('#' :: u2) Y l.ln l.col
                ('\n' :: v0) dln dcol hd2 (by simp) Y' l'.ln l'.col
              have hsw2 : skipWs (v0 ++ Y) (dln + 1) 0 =
                  ⟨(a1 :: s1) ++ Y, sln, scol⟩ := by
                rw [← hdrest, hsw, hst, List.cons_append]
              obtain ⟨se, sf, hswY⟩ := skipWs_ext v0 Y (dln + 1) 0 (a1 :: s1) sln scol
                hsw2 (by simp) Y' (da + 1) 0
              have hfuel2 : ((a1 :: s1) ++ Y').length < m' := by
                have hA : st.length ≤ drest.length := hswsuf.length_le
                have hB : ('\n' :: drest).length ≤ ('#' :: (u2 ++ Y)).length :=
                  hdsuf.length_le
                rw [hst] at hA
                rw [hdrest] at hA hB
                simp only [List.length_cons, List.length_append] at hA hB hflen ⊢
                omega
              obtain ⟨lres', hres', htext'⟩ := ih m (Nat.lt_succ_self m)
                ⟨st, sln, scol⟩ (a1 :: s1) Y lres w
                (by show st = (a1 :: s1) ++ Y; rw [hst, List.cons_append])
                hrun hlres hw Y' m' ⟨(a1 :: s1) ++ Y', se, sf⟩ rfl hfuel2
              refine ⟨lres', ?_, htext'⟩
              simp only [commentLoop]
              rw [hl', List.cons_append]
              split
              · have hdY2 : dropLine ('#' :: (u2 ++ Y')) l'.ln l'.col =
                    ⟨'\n' :: (v0 ++ Y'), da, db⟩ := by
                  rw [← List.cons_append, hdY, List.cons_append]
                rw [hdY2]
                dsimp only [Lexer.advance]
                rw [if_pos rfl]
                dsimp only
                rw [hswY]
                exact hres'
              · rename_i hno
                exact (hno (u2 ++ Y') rfl).elim
        · rename_i hno
          exact (hno (u2 ++ Y) rfl).elim
      · split at hrun
        · rename_i hx heq
          exact absurd (List.head_eq_of_cons_eq heq) hc
        · have hlr : l = lres := by
            cases hrun
            rfl
          subst hlr
          have hwc : w = c :: u2 := by
            have h9 : (c :: u2) ++ Y = w ++ Y := by
              rw [← hl]
              exact hlres
            exact (List.append_left_injective Y h9).symm
          refine ⟨l', ?_, ?_⟩
          · simp only [commentLoop]
            rw [hl', List.cons_append]
            split
            · rename_i hx heq
              exact absurd (List.head_eq_of_cons_eq heq) hc
            · rfl
          · rw [hl', hwc]

/-- A string-literal scan that stops strictly inside the prefix (at a
closing quote that lies before the suffix) is unaffected by replacing the
suffix: same collected payload, same remaining prefix. -/
theorem strLoop_ext (f : Nat) :
    ∀ (endc : Char) (acc : String) (l : Lexer) (u Y : List Char) (s : String)
      (l4 : Lexer) (w : List Char),
      l.text = u ++ Y → strLoop f endc acc l = some (.ok (s, l4)) →
      l4.text = w ++ Y → w ≠ [] →
      ∀ (Y' : List Char) (f' : Nat) (l' : Lexer), l'.text = u ++ Y' →
        (u ++ Y').length < f' →
        ∃ l4', strLoop f' endc acc l' = some (.ok (s, l4')) ∧ l4'.text = w ++ Y' := by
  induction f using Nat.strong_induction_on with
  | _ f ih =>
    intro endc acc l u Y s l4 w hl hrun hl4 hw Y' f' l' hl' hflen
    cases f with
    | zero => exact absurd hrun (by simp [strLoop])
    | succ m =>
    cases f' with
    | zero => exact absurd hflen (Nat.not_lt_zero _)
    | succ m' =>
    cases u with
    | nil =>
      exfalso
      have hsuf := strLoop_suffix _ _ _ _ _ _ hrun
      rw [hl, hl4, List.nil_append] at hsuf
      have hle := hsuf.length_le
      rw [List.length_append] at hle
      exact hw (List.length_eq_zero.mp (by omega))
    | cons c u2 =>
      rw [strLoop] at hrun
      rw [hl, List.cons_append] at hrun
      dsimp only at hrun
      by_cases hce : c = endc
      · rw [if_pos hce] at hrun
        cases hrun
        have hwc : w = c :: u2 := by
          have h9 : (c :: u2) ++ Y = w ++ Y := by
            rw [← hl]
            exact hl4
          exact (List.append_left_injective Y h9).symm
        refine ⟨l', ?_, by rw [hl', hwc]⟩
        rw [strLoop, hl', List.cons_append]
        dsimp only
        rw [if_pos hce]
      · rw [if_neg hce] at hrun
        by_cases hcb : c = '\\'
        · rw [if_pos hcb] at hrun
          obtain ⟨p1, q1, hadv1⟩ := advance_cons l c (u2 ++ Y)
            (by rw [hl, List.cons_append])
          rw [hadv1] at hrun
          dsimp only at hrun
          cases u2 with
          | nil =>
            exfalso
            rw [List.nil_append] at hrun
            cases Y with
            | nil =>
              dsimp only [Lexer.advance] at hrun
              exact absurd hrun (by simp)
            | cons y ys =>
              obtain ⟨p2, q2, hadv2⟩ := advance_cons ⟨y :: ys, p1, q1⟩ y ys rfl
              rw [hadv2] at hrun
              dsimp only at hrun
              have hcontra : ∀ (acc2 : String) (lz : Lexer), lz.text <:+ ys →
                  strLoop m endc acc2 lz = some (.ok (s, l4)) → False := by
                intro acc2 lz hsub hrun2
                have h1 := (strLoop_suffix m endc acc2 lz s l4 hrun2).length_le
                have h2 := hsub.length_le
                have h3 : l4.text.length = w.length + ys.length + 1 := by
                  rw [hl4, List.length_append, List.length_cons]
                  omega
                have h5 : 0 < w.length := List.length_pos.mpr hw
                omega
              by_cases hy1 : y = 'n'
              · rw [if_pos hy1] at hrun
                exact hcontra _ _ (advanceSkip_suffix _) hrun
              rw [if_neg hy1] at hrun
              by_cases hy2 : y = 't'
              · rw [if_pos hy2] at hrun
                exact hcontra _ _ (advanceSkip_suffix _) hrun
              rw [if_neg hy2] at hrun
              by_cases hy3 : y = 'r'
              · rw [if_pos hy3] at hrun
                exact hcontra _ _ (advanceSkip_suffix _) hrun
              rw [if_neg hy3] at hrun
              by_cases hy4 : y.isDigit = true
              · rw [if_pos hy4] at hrun
                rcases hT : takeLoop Char.isDigit ys p2 q2 (String.singleton y)
                    ((⟨ys, p2, q2⟩ : Lexer).pos) with ⟨num, pp, l3⟩
                rw [hT] at hrun
                dsimp only at hrun
                split at hrun
                · have htk : l3.text <:+ ys := by
                    have h0 := takeLoop_suffix Char.isDigit ys p2 q2
                      (String.singleton y) ((⟨ys, p2, q2⟩ : Lexer).pos)
                    rw [hT] at h0
                    exact h0
                  exact hcontra _ _ ((advanceSkip_suffix l3).trans htk) hrun
                · exact absurd hrun (by simp)
              · rw [if_neg hy4] at hrun
                exact hcontra _ _ (advanceSkip_suffix _) hrun
          | cons e u3 =>
            rw [List.cons_append] at hrun
            obtain ⟨p2, q2, hadv2⟩ := advance_cons ⟨e :: (u3 ++ Y), p1, q1⟩ e (u3 ++ Y) rfl
            rw [hadv2] at hrun
            dsimp only at hrun
            obtain ⟨p1', q1', hadv1'⟩ := advance_cons l' c ((e :: u3) ++ Y')
              (by rw [hl', List.cons_append])
            obtain ⟨p2', q2', hadv2'⟩ := advance_cons ⟨e :: (u3 ++ Y'), p1', q1'⟩ e
              (u3 ++ Y') rfl
            have hpush : ∀ (acc2 : String) (lz lz' : Lexer), lz.text = u3 ++ Y →
                lz'.text = u3 ++ Y' →
                strLoop m endc acc2 (advanceSkip lz) = some (.ok (s, l4)) →
                ∃ l4', strLoop m' endc acc2 (advanceSkip lz') = some (.ok (s, l4')) ∧
                  l4'.text = w ++ Y' := by
              intro acc2 lz lz' hlz hlz' hrun2
              cases u3 with
              | nil =>
                exfalso
                rw [List.nil_append] at hlz
                have h1 := (strLoop_suffix m endc acc2 (advanceSkip lz) s l4 hrun2).length_le
                have h2 := (advanceSkip_suffix lz).length_le
                rw [hlz] at h2
                have h3 : l4.text.length = w.length + Y.length := by
                  rw [hl4, List.length_append]
                have h5 : 0 < w.length := List.length_pos.mpr hw
                omega
              | cons d u4 =>
                have hsk : (advanceSkip lz).text = u4 ++ Y :=
                  advanceSkip_cons lz d (u4 ++ Y) (by rw [hlz, List.cons_append])
                have hsk' : (advanceSkip lz').text = u4 ++ Y' :=
                  advanceSkip_cons lz' d (u4 ++ Y') (by rw [hlz', List.cons_append])
                exact ih m (Nat.lt_succ_self m) endc acc2 (advanceSkip lz) u4 Y s l4 w
                  hsk hrun2 hl4 hw Y' m' (advanceSkip lz') hsk'
                  (by
                    simp only [List.length_cons, List.length_append] at hflen ⊢
                    omega)
            by_cases hy1 : e = 'n'
            · rw [if_pos hy1] at hrun
              obtain ⟨l4', hA, hB⟩ := hpush (acc.push '\n') ⟨u3 ++ Y, p2, q2⟩
                ⟨u3 ++ Y', p2', q2'⟩ rfl rfl hrun
              refine ⟨l4', ?_, hB⟩
              rw [strLoop, hl', List.cons_append]
              dsimp only
              rw [if_neg hce, if_pos hcb, hadv1']
              dsimp only
              rw [List.cons_append, hadv2']
              dsimp only
              rw [if_pos hy1]
              exact hA
            rw [if_neg hy1] at hrun
            by_cases hy2 : e = 't'
            · rw [if_pos hy2] at hrun
              obtain ⟨l4', hA, hB⟩ := hpush (acc.push '\t') ⟨u3 ++ Y, p2, q2⟩
                ⟨u3 ++ Y', p2', q2'⟩ rfl rfl hrun
              refine ⟨l4', ?_, hB⟩
              rw [strLoop, hl', List.cons_append]
              dsimp only
              rw [if_neg hce, if_pos hcb, hadv1']
              dsimp only
              rw [List.cons_append, hadv2']
              dsimp only
              rw [if_neg hy1, if_pos hy2]
              exact hA
            rw [if_neg hy2] at hrun
            by_cases hy3 : e = 'r'
            · rw [if_pos hy3] at hrun
              obtain ⟨l4', hA, hB⟩ := hpush (acc.push '\r') ⟨u3 ++ Y, p2, q2⟩
                ⟨u3 ++ Y', p2', q2'⟩ rfl rfl hrun
              refine ⟨l4', ?_, hB⟩
              rw [strLoop, hl', List.cons_append]
              dsimp only
              rw [if_neg hce, if_pos hcb, hadv1']
              dsimp only
              rw [List.cons_append, hadv2']
              dsimp only
              rw [if_neg hy1, if_neg hy2, if_pos hy3]
              exact hA
            rw [if_neg hy3] at hrun
            by_cases hy4 : e.isDigit = true
            · rw [if_pos hy4] at hrun
              rcases hT : takeLoop Char.isDigit (u3 ++ Y) p2 q2 (String.singleton e)
                  ((⟨u3 ++ Y, p2, q2⟩ : Lexer).pos) with ⟨num, pp, l3⟩
              rw [hT] at hrun
              dsimp only at hrun
              split at hrun
              · rename_i v heqP
                have hsufl4 := strLoop_suffix m endc _ _ s l4 hrun
                have hsk3 := advanceSkip_suffix l3
                have hYl4 : Y <:+ l4.text := by
                  rw [hl4]
                  exact ⟨w, rfl⟩
                have htk3 : l3.text <:+ u3 ++ Y := by
                  have h0 := takeLoop_suffix Char.isDigit (u3 ++ Y) p2 q2
                    (String.singleton e) ((⟨u3 ++ Y, p2, q2⟩ : Lexer).pos)
                  rw [hT] at h0
                  exact h0
                have hYl3 : Y <:+ l3.text := (hYl4.trans hsufl4).trans hsk3
                have hlenl3 : Y.length < l3.text.length := by
                  have h1 := hsufl4.length_le
                  have h2 := hsk3.length_le
                  have h3 : l4.text.length = w.length + Y.length := by
                    rw [hl4, List.length_append]
                  have h5 : 0 < w.length := List.length_pos.mpr hw
                  omega
                obtain ⟨b0, vv, hl3split⟩ := suffix_split_ne hYl3 hlenl3
                obtain ⟨pp', a4, b4, hTY'⟩ := takeLoop_ext Char.isDigit u3 Y p2 q2
                  (String.singleton e) ((⟨u3 ++ Y, p2, q2⟩ : Lexer).pos) num pp l3
                  (b0 :: vv) hT hl3split Y'
                  (by
                    intro hh
                    exact absurd hh (by simp))
                  p2' q2' ((⟨u3 ++ Y', p2', q2'⟩ : Lexer).pos)
                have hsk3run : (advanceSkip l3).text = vv ++ Y :=
                  advanceSkip_cons l3 b0 (vv ++ Y) (by rw [hl3split, List.cons_append])
                have hsk3mod : (advanceSkip ⟨(b0 :: vv) ++ Y', a4, b4⟩).text = vv ++ Y' :=
                  advanceSkip_cons _ b0 (vv ++ Y') (by rw [List.cons_append])
                obtain ⟨l4', hrec, hrectext⟩ := ih m (Nat.lt_succ_self m) endc
                  (acc.push (Char.ofNat v)) (advanceSkip l3) vv Y s l4 w hsk3run hrun
                  hl4 hw Y' m' (advanceSkip ⟨(b0 :: vv) ++ Y', a4, b4⟩) hsk3mod
                  (by
                    have h1 := htk3.length_le
                    rw [hl3split] at h1
                    simp only [List.length_cons, List.length_append] at h1 hflen ⊢
                    omega)
                refine ⟨l4', ?_, hrectext⟩
                rw [strLoop, hl', List.cons_append]
                dsimp only
                rw [if_neg hce, if_pos hcb, hadv1']
                dsimp only
                rw [List.cons_append, hadv2']
                dsimp only
                rw [if_neg hy1, if_neg hy2, if_neg hy3, if_pos hy4, hTY']
                dsimp only
                rw [heqP]
                dsimp only
                exact hrec
              · exact absurd hrun (by simp)
            · rw [if_neg hy4] at hrun
              obtain ⟨l4', hA, hB⟩ := hpush (acc.push e) ⟨u3 ++ Y, p2, q2⟩
                ⟨u3 ++ Y', p2', q2'⟩ rfl rfl hrun
              refine ⟨l4', ?_, hB⟩
              rw [strLoop, hl', List.cons_append]
              dsimp only
              rw [if_neg hce, if_pos hcb, hadv1']
              dsimp only
              rw [List.cons_append, hadv2']
              dsimp only
              rw [if_neg hy1, if_neg hy2, if_neg hy3, if_neg hy4]
              exact hA
        · rw [if_neg hcb] at hrun
          have hskrun : (advanceSkip l).text = u2 ++ Y :=
            advanceSkip_cons l c (u2 ++ Y) (by rw [hl, List.cons_append])
          have hskmod : (advanceSkip l').text = u2 ++ Y' :=
            advanceSkip_cons l' c (u2 ++ Y') (by rw [hl', List.cons_append])
          obtain ⟨l4', hrec, hrectext⟩ := ih m (Nat.lt_succ_self m) endc (acc.push c)
            (advanceSkip l) u2 Y s l4 w hskrun hrun hl4 hw Y' m' (advanceSkip l') hskmod
            (by
              simp only [List.length_cons, List.length_append] at hflen ⊢
              omega)
          refine ⟨l4', ?_, hrectext⟩
          rw [strLoop, hl', List.cons_append]
          dsimp only
          rw [if_neg hce, if_neg hcb]
          exact hrec

/-- A character that is not alphanumeric is not a digit. -/
theorem not_alphanum_not_digit (c : Char) (h : c.isAlphanum = false) :
    c.isDigit = false := by
  cases hd : c.isDigit
  · rfl
  · exfalso
    simp only [Char.isAlphanum, hd, Bool.or_true] at h
    exact Bool.noConfusion h

/-- A token dispatch whose token ends inside the prefix, or exactly at its
end when the replacement suffix cannot continue the token, yields the same
token value on the replaced text. -/
theorem nextCore_ext (l2 : Lexer) (u Y : List Char) (t : Located Token) (lr : Lexer)
    (w : List Char) (hl2 : l2.text = u ++ Y) (hrun : nextCore l2 = some (.ok (t, lr)))
    (hlr : lr.text = w ++ Y) (Y' : List Char) (hok : w = [] → insertHeadOk Y')
    (l2' : Lexer) (hl2' : l2'.text = u ++ Y') :
    ∃ t' lr', nextCore l2' = some (.ok (t', lr')) ∧ t'.value = t.value ∧
      lr'.text = w ++ Y' := by
  cases u with
  | nil =>
    exfalso
    obtain ⟨hsuf, hlt⟩ := nextCore_suffix l2 t lr hrun
    rw [hl2, hlr, List.nil_append, List.length_append] at hlt
    omega
  | cons c u2 =>
    simp only [nextCore] at hrun
    obtain ⟨pA, qA, hadvA⟩ := advance_cons l2 c (u2 ++ Y) (by rw [hl2, List.cons_append])
    rw [hadvA] at hrun
    dsimp only at hrun
    obtain ⟨pA', qA', hadvA'⟩ := advance_cons l2' c (u2 ++ Y')
      (by rw [hl2', List.cons_append])
    by_cases h1 : c = '('
    · rw [if_pos h1] at hrun
      cases hrun
      have hwc : w = u2 := (List.append_left_injective Y (hlr : u2 ++ Y = w ++ Y)).symm
      refine ⟨⟨Token.ParanLeft, Lexer.pos l2'⟩, ⟨u2 ++ Y', pA', qA'⟩, ?_, rfl, ?_⟩
      · simp only [nextCore]
        rw [hadvA']
        dsimp only
        rw [if_pos h1]
      · rw [hwc]
    rw [if_neg h1] at hrun
    by_cases h2 : c = ')'
    · rw [if_pos h2] at hrun
      cases hrun
      have hwc : w = u2 := (List.append_left_injective Y (hlr : u2 ++ Y = w ++ Y)).symm
      refine ⟨⟨Token.ParanRight, Lexer.pos l2'⟩, ⟨u2 ++ Y', pA', qA'⟩, ?_, rfl, ?_⟩
      · simp only [nextCore]
        rw [hadvA']
        dsimp only
        rw [if_neg h1, if_pos h2]
      · rw [hwc]
    rw [if_neg h2] at hrun
    by_cases h3 : c = '['
    · rw [if_pos h3] at hrun
      cases hrun
      have hwc : w = u2 := (List.append_left_injective Y (hlr : u2 ++ Y = w ++ Y)).symm
      refine ⟨⟨Token.BracketLeft, Lexer.pos l2'⟩, ⟨u2 ++ Y', pA', qA'⟩, ?_, rfl, ?_⟩
      · simp only [nextCore]
        rw [hadvA']
        dsimp only
        rw [if_neg h1, if_neg h2, if_pos h3]
      · rw [hwc]
    rw [if_neg h3] at hrun
    by_cases h4 : c = ']'
    · rw [if_pos h4] at hrun
      cases hrun
      have hwc : w = u2 := (List.append_left_injective Y (hlr : u2 ++ Y = w ++ Y)).symm
      refine ⟨⟨Token.BracketRight, Lexer.pos l2'⟩, ⟨u2 ++ Y', pA', qA'⟩, ?_, rfl, ?_⟩
      · simp only [nextCore]
        rw [hadvA']
        dsimp only
        rw [if_neg h1, if_neg h2, if_neg h3, if_pos h4]
      · rw [hwc]
    rw [if_neg h4] at hrun
    by_cases h5 : c = '{'
    · rw [if_pos h5] at hrun
      cases hrun
      have hwc : w = u2 := (List.append_left_injective Y (hlr : u2 ++ Y = w ++ Y)).symm
      refine ⟨⟨Token.BraceLeft, Lexer.pos l2'⟩, ⟨u2 ++ Y', pA', qA'⟩, ?_, rfl, ?_⟩
      · simp only [nextCore]
        rw [hadvA']
        dsimp only
        rw [if_neg h1, if_neg h2, if_neg h3, if_neg h4, if_pos h5]
      · rw [hwc]
    rw [if_neg h5] at hrun
    by_cases h6 : c = '}'
    · rw [if_pos h6] at hrun
      cases hrun
      have hwc : w = u2 := (List.append_left_injective Y (hlr : u2 ++ Y = w ++ Y)).symm
      refine ⟨⟨Token.BraceRight, Lexer.pos l2'⟩, ⟨u2 ++ Y', pA', qA'⟩, ?_, rfl, ?_⟩
      · simp only [nextCore]
        rw [hadvA']
        dsimp only
        rw [if_neg h1, if_neg h2, if_neg h3, if_neg h4, if_neg h5, if_pos h6]
      · rw [hwc]
    rw [if_neg h6] at hrun
    by_cases h7 : c = '='
    · rw [if_pos h7] at hrun
      cases hrun
      have hwc : w = u2 := (List.append_left_injective Y (hlr : u2 ++ Y = w ++ Y)).symm
      refine ⟨⟨Token.Equal, Lexer.pos l2'⟩, ⟨u2 ++ Y', pA', qA'⟩, ?_, rfl, ?_⟩
      · simp only [nextCore]
        rw [hadvA']
        dsimp only
        rw [if_neg h1, if_neg h2, if_neg h3, if_neg h4, if_neg h5, if_neg h6, if_pos h7]
      · rw [hwc]
    rw [if_neg h7] at hrun
    by_cases h8 : c = ';'
    · rw [if_pos h8] at hrun
      cases hrun
      have hwc : w = u2 := (List.append_left_injective Y (hlr : u2 ++ Y = w ++ Y)).symm
      refine ⟨⟨Token.Semicolon, Lexer.pos l2'⟩, ⟨u2 ++ Y', pA', qA'⟩, ?_, rfl, ?_⟩
      · simp only [nextCore]
        rw [hadvA']
        dsimp only
        rw [if_neg h1, if_neg h2, if_neg h3, if_neg h4, if_neg h5, if_neg h6, if_neg h7,
          if_pos h8]
      · rw [hwc]
    rw [if_neg h8] at hrun
    by_cases h9 : c = '.'
    · rw [if_pos h9] at hrun
      cases hrun
      have hwc : w = u2 := (List.append_left_injective Y (hlr : u2 ++ Y = w ++ Y)).symm
      refine ⟨⟨Token.Dot, Lexer.pos l2'⟩, ⟨u2 ++ Y', pA', qA'⟩, ?_, rfl, ?_⟩
      · simp only [nextCore]
        rw [hadvA']
        dsimp only
        rw [if_neg h1, if_neg h2, if_neg h3, if_neg h4, if_neg h5, if_neg h6, if_neg h7,
          if_neg h8, if_pos h9]
      · rw [hwc]
    rw [if_neg h9] at hrun
    by_cases h10 : (c = '"' ∨ c = '\'')
    · rw [if_pos h10] at hrun
      split at hrun
      · exact Option.noConfusion hrun
      · exact absurd hrun (by simp)
      · rename_i s l4 heqS
        split at hrun
        · rename_i c2 rest heq4
          by_cases hc2 : c2 = c
          · rw [if_pos hc2] at hrun
            cases hrun
            have hrw : rest = w ++ Y := hlr
            obtain ⟨l4', hS', hS'text⟩ := strLoop_ext ((u2 ++ Y).length + 1) c ""
              ⟨u2 ++ Y, pA, qA⟩ u2 Y s l4 (c2 :: w) rfl heqS
              (by rw [heq4, hrw, List.cons_append]) (by simp) Y'
              ((u2 ++ Y').length + 1) ⟨u2 ++ Y', pA', qA'⟩ rfl (Nat.lt_succ_self _)
            refine ⟨⟨Token.String s, (Lexer.pos l2').extend l4'.pos⟩,
              ⟨w ++ Y', l4'.ln, l4'.col⟩, ?_, rfl, rfl⟩
            simp only [nextCore]
            rw [hadvA']
            dsimp only
            rw [if_neg h1, if_neg h2, if_neg h3, if_neg h4, if_neg h5, if_neg h6,
              if_neg h7, if_neg h8, if_neg h9, if_pos h10, hS']
            dsimp only
            rw [hS'text, List.cons_append]
            dsimp only
            rw [if_pos hc2]
          · rw [if_neg hc2] at hrun
            exact absurd hrun (by simp)
        · exact absurd hrun (by simp)
    rw [if_neg h10] at hrun
    by_cases h11 : c.isDigit = true
    · rw [if_pos h11] at hrun
      rcases hT : takeLoop Char.isDigit (u2 ++ Y) pA qA (String.singleton c)
          (Lexer.pos l2) with ⟨num, pos2, l4⟩
      rw [hT] at hrun
      dsimp only at hrun
      split at hrun
      · rename_i tl heq4
        rcases hT2 : takeLoop Char.isDigit (advanceSkip l4).text (advanceSkip l4).ln
            (advanceSkip l4).col (num.push '.') (pos2.extend l4.pos)
          with ⟨num2, pos4, l6⟩
        rw [hT2] at hrun
        dsimp only at hrun
        cases hrun
        have hsk4 : (advanceSkip l4).text = tl := advanceSkip_cons l4 '.' tl heq4
        have htk6 : lr.text <:+ tl := by
          have h0 := takeLoop_suffix Char.isDigit (advanceSkip l4).text
            (advanceSkip l4).ln (advanceSkip l4).col (num.push '.') (pos2.extend l4.pos)
          rw [hT2, hsk4] at h0
          exact h0
        have hYl6 : Y <:+ lr.text := by
          rw [hlr]
          exact ⟨w, rfl⟩
        obtain ⟨z1, htl⟩ := suffix_split (hYl6.trans htk6)
        obtain ⟨pos2', a5, b5, hTY1⟩ := takeLoop_ext Char.isDigit u2 Y pA qA
          (String.singleton c) (Lexer.pos l2) num pos2 l4 ('.' :: z1) hT
          (by rw [heq4, htl, List.cons_append]) Y'
          (by
            intro hh
            exact absurd hh (by simp))
          pA' qA' (Lexer.pos l2')
        rw [hsk4, htl] at hT2
        have hsk' : (advanceSkip ⟨'.' :: (z1 ++ Y'), a5, b5⟩).text = z1 ++ Y' :=
          advanceSkip_cons _ '.' (z1 ++ Y') rfl
        obtain ⟨pos4', a6, b6, hTY2⟩ := takeLoop_ext Char.isDigit z1 Y
          (advanceSkip l4).ln (advanceSkip l4).col (num.push '.') (pos2.extend l4.pos)
          num2 pos4 lr w hT2 hlr Y'
          (by
            intro hwnil cH rH hYeq
            exact not_alphanum_not_digit cH (hok hwnil cH rH hYeq).1)
          (advanceSkip ⟨'.' :: (z1 ++ Y'), a5, b5⟩).ln
          (advanceSkip ⟨'.' :: (z1 ++ Y'), a5, b5⟩).col
          (pos2'.extend ((⟨'.' :: (z1 ++ Y'), a5, b5⟩ : Lexer).pos))
        refine ⟨⟨Token.Decimal num2, pos4'⟩, ⟨w ++ Y', a6, b6⟩, ?_, rfl, rfl⟩
        simp only [nextCore]
        rw [hadvA']
        dsimp only
        rw [if_neg h1, if_neg h2, if_neg h3, if_neg h4, if_neg h5, if_neg h6, if_neg h7,
          if_neg h8, if_neg h9, if_neg h10, if_pos h11, hTY1]
        dsimp only
        rw [List.cons_append]
        split
        · rename_i x heqB
          rw [hsk']
          rw [hTY2]
        · rename_i hno
          exact (hno (z1 ++ Y') rfl).elim
      · rename_i hne
        split at hrun
        · rename_i v heqI
          cases hrun
          obtain ⟨pos2', a5, b5, hTY1⟩ := takeLoop_ext Char.isDigit u2 Y pA qA
            (String.singleton c) (Lexer.pos l2) num pos2 lr w hT hlr Y'
            (by
              intro hwnil cH rH hYeq
              exact not_alphanum_not_digit cH (hok hwnil cH rH hYeq).1)
            pA' qA' (Lexer.pos l2')
          refine ⟨⟨Token.Integer v, pos2'⟩, ⟨w ++ Y', a5, b5⟩, ?_, rfl, rfl⟩
          simp only [nextCore]
          rw [hadvA']
          dsimp only
          rw [if_neg h1, if_neg h2, if_neg h3, if_neg h4, if_neg h5, if_neg h6,
            if_neg h7, if_neg h8, if_neg h9, if_neg h10, if_pos h11, hTY1]
          dsimp only
          split
          · rename_i x heqB
            exfalso
            cases w with
            | nil =>
              rw [List.nil_append] at heqB
              exact (hok rfl '.' x heqB).2 rfl
            | cons c3 w2 =>
              rw [List.cons_append] at heqB
              have hc3 : c3 = '.' := List.head_eq_of_cons_eq heqB
              exact hne (w2 ++ Y) (by rw [hlr, hc3, List.cons_append])
          · rw [heqI]
        · exact absurd hrun (by simp)
    rw [if_neg h11] at hrun
    by_cases h12 : c.isAlphanum = true
    · rw [if_pos h12] at hrun
      rcases hT : takeLoop Char.isAlphanum (u2 ++ Y) pA qA (String.singleton c)
          (Lexer.pos l2) with ⟨ident, pos2, l4⟩
      rw [hT] at hrun
      dsimp only at hrun
      cases hrun
      obtain ⟨pos2', a5, b5, hTY1⟩ := takeLoop_ext Char.isAlphanum u2 Y pA qA
        (String.singleton c) (Lexer.pos l2) ident pos2 lr w hT hlr Y'
        (by
          intro hwnil cH rH hYeq
          exact (hok hwnil cH rH hYeq).1)
        pA' qA' (Lexer.pos l2')
      refine ⟨⟨Token.Ident ident, pos2'⟩, ⟨w ++ Y', a5, b5⟩, ?_, rfl, rfl⟩
      simp only [nextCore]
      rw [hadvA']
      dsimp only
      rw [if_neg h1, if_neg h2, if_neg h3, if_neg h4, if_neg h5, if_neg h6, if_neg h7,
        if_neg h8, if_neg h9, if_neg h10, if_neg h11, if_pos h12, hTY1]
    rw [if_neg h12] at hrun
    exact absurd hrun (by simp)

/-- A `next` step whose token ends inside the prefix, or exactly at its end
when the replacement suffix cannot continue the token, yields the same token
value on the replaced text, consuming the same prefix characters. -/
theorem next_ext (l : Lexer) (u Y : List Char) (t : Located Token) (lr : Lexer)
    (w : List Char) (hl : l.text = u ++ Y) (hrun : l.next = some (.ok (t, lr)))
    (hlr : lr.text = w ++ Y) (Y' : List Char) (hok : w = [] → insertHeadOk Y')
    (l' : Lexer) (hl' : l'.text = u ++ Y') :
    ∃ t' lr', l'.next = some (.ok (t', lr')) ∧ t'.value = t.value ∧
      lr'.text = w ++ Y' := by
  simp only [Lexer.next] at hrun
  rw [hl] at hrun
  split at hrun
  · exact Option.noConfusion hrun
  · rename_i l2x hcl
    have hclsuf := commentLoop_suffix _ _ _ hcl
    have hswsuf := skipWs_suffix (u ++ Y) l.ln l.col
    obtain ⟨hncsuf, hnclen⟩ := nextCore_suffix l2x t lr hrun
    have hYlr : Y <:+ lr.text := by
      rw [hlr]
      exact ⟨w, rfl⟩
    have hlenlr : Y.length ≤ lr.text.length := hYlr.length_le
    have hYl2x : Y <:+ l2x.text := hYlr.trans hncsuf
    have hl2xlen : Y.length < l2x.text.length := lt_of_le_of_lt hlenlr hnclen
    obtain ⟨a2, v2, hsplit2⟩ := suffix_split_ne hYl2x hl2xlen
    rcases hsw : skipWs (u ++ Y) l.ln l.col with ⟨st, sln, scol⟩
    rw [hsw] at hcl hclsuf hswsuf
    dsimp only at hcl hclsuf hswsuf
    have hYst : Y <:+ st := hYl2x.trans hclsuf
    have hstlen : Y.length < st.length := lt_of_lt_of_le hl2xlen hclsuf.length_le
    obtain ⟨a1, v1, hsplit1⟩ := suffix_split_ne hYst hstlen
    obtain ⟨se, sf, hswY'⟩ := skipWs_ext u Y l.ln l.col (a1 :: v1) sln scol
      (by rw [hsw, hsplit1]) (by simp) Y' l'.ln l'.col
    obtain ⟨l2x', hclY', hl2x't⟩ := commentLoop_ext (st.length + 1) ⟨st, sln, scol⟩
      (a1 :: v1) Y l2x (a2 :: v2)
      (by
        show st = (a1 :: v1) ++ Y
        rw [hsplit1])
      hcl hsplit2 (by simp)
      Y' (((a1 :: v1) ++ Y').length + 1) ⟨(a1 :: v1) ++ Y', se, sf⟩ rfl
      (Nat.lt_succ_self _)
    obtain ⟨t', lr', hnc', hval, htext⟩ := nextCore_ext l2x (a2 :: v2) Y t lr w
      hsplit2 hrun hlr Y' hok l2x' hl2x't
    refine ⟨t', lr', ?_, hval, htext⟩
    simp only [Lexer.next]
    rw [hl', hswY']
    dsimp only
    rw [hclY']
    exact hnc'

/-- Text that may be inserted between two tokens: any sequence of ASCII
whitespace and newline-terminated hash comments. -/
inductive Insertable : List Char → Prop where
  | nil : Insertable []
  | ws : ∀ {c : Char} {r : List Char}, isAsciiWhitespace c = true → Insertable r →
      Insertable (c :: r)
  | comment : ∀ {b r : List Char}, (∀ c ∈ b, c ≠ '\n') → Insertable r →
      Insertable ('#' :: (b ++ '\n' :: r))

/-- The comment-line loop runs past a newline-free block up to the newline. -/
theorem dropLine_past (b : List Char) :
    ∀ (rest : List Char) (ln col : Nat), (∀ c ∈ b, c ≠ '\n') →
      ∃ col2, dropLine (b ++ '\n' :: rest) ln col = ⟨'\n' :: rest, ln, col2⟩ := by
  induction b with
  | nil =>
    intro rest ln col h
    exact ⟨col, by rw [List.nil_append, dropLine, if_pos rfl]⟩
  | cons c b2 ih =>
    intro rest ln col h
    have hc : c ≠ '\n' := h c (by simp)
    obtain ⟨col2, h2⟩ := ih rest ln (col + 1) (fun d hd => h d (by simp [hd]))
    refine ⟨col2, ?_⟩
    rw [List.cons_append, dropLine, if_neg hc]
    exact h2

/-- The whitespace/comment skip phase of `next` erases an insertable block
from the front of the text: the remaining text agrees with the skip phase
run on the uninserted text. -/
theorem skipPhase_insert (ins : List Char) (hins : Insertable ins) :
    ∀ (post : List Char) (ln col lnB colB f g : Nat),
      (skipWs (ins ++ post) ln col).text.length < f →
      (skipWs post lnB colB).text.length < g →
      Option.map Lexer.text (commentLoop f (skipWs (ins ++ post) ln col)) =
      Option.map Lexer.text (commentLoop g (skipWs post lnB colB)) := by
  induction hins with
  | nil =>
    intro post ln col lnB colB f g hf hg
    rw [List.nil_append] at hf ⊢
    exact commentLoop_agree f g _ _ (skipWs_agree post ln col lnB colB) hf hg
  | ws hc hr ih =>
    rename_i c r
    intro post ln col lnB colB f g hf hg
    rw [List.cons_append, skipWs, if_pos hc] at hf ⊢
    by_cases hn : c = '\n'
    · rw [if_pos hn] at hf ⊢
      exact ih post (ln + 1) 0 lnB colB f g hf hg
    · rw [if_neg hn] at hf ⊢
      exact ih post ln (col + 1) lnB colB f g hf hg
  | comment hb hr ih =>
    rename_i b r
    intro post ln col lnB colB f g hf hg
    rw [List.cons_append, List.append_assoc, List.cons_append] at hf ⊢
    have hswx : skipWs ('#' :: (b ++ '\n' :: (r ++ post))) ln col =
        ⟨'#' :: (b ++ '\n' :: (r ++ post)), ln, col⟩ := by
      rw [skipWs, if_neg (by decide)]
    rw [hswx] at hf ⊢
    dsimp only at hf
    cases f with
    | zero => exact absurd hf (Nat.not_lt_zero _)
    | succ m =>
    obtain ⟨col2, hdl⟩ := dropLine_past ('#' :: b) (r ++ post) ln col
      (by
        intro d hd
        rcases List.mem_cons.mp hd with rfl | hd2
        · decide
        · exact hb d hd2)
    have hstep : commentLoop (m + 1) ⟨'#' :: (b ++ '\n' :: (r ++ post)), ln, col⟩ =
        commentLoop m (skipWs (r ++ post) (ln + 1) 0) := by
      simp only [commentLoop]
      rw [show dropLine ('#' :: (b ++ '\n' :: (r ++ post))) ln col =
          ⟨'\n' :: (r ++ post), ln, col2⟩ from by
        rw [← hdl, List.cons_append]]
      dsimp only [Lexer.advance]
      rw [if_pos rfl]
    rw [hstep]
    have hfm : (skipWs (r ++ post) (ln + 1) 0).text.length < m := by
      have h1 := (skipWs_suffix (r ++ post) (ln + 1) 0).length_le
      simp only [List.length_cons, List.length_append] at hf
      rw [List.length_append] at h1
      omega
    exact ih post (ln + 1) 0 lnB colB m g hfm hg

/-- A `next` step run on a text with an insertable block in front agrees,
up to spans, with `next` on the text without the block. -/
theorem next_insert (ins : List Char) (hins : Insertable ins) (l1 lo : Lexer)
    (h : l1.text = ins ++ lo.text) :
    stripNext l1.next = stripNext lo.next := by
  simp only [Lexer.next]
  rw [h]
  have hsp := skipPhase_insert ins hins lo.text l1.ln l1.col lo.ln lo.col
    ((skipWs (ins ++ lo.text) l1.ln l1.col).text.length + 1)
    ((skipWs lo.text lo.ln lo.col).text.length + 1)
    (Nat.lt_succ_self _) (Nat.lt_succ_self _)
  rcases hc1 : commentLoop ((skipWs (ins ++ lo.text) l1.ln l1.col).text.length + 1)
      (skipWs (ins ++ lo.text) l1.ln l1.col) with _ | lA
  · rcases hc2 : commentLoop ((skipWs lo.text lo.ln lo.col).text.length + 1)
        (skipWs lo.text lo.ln lo.col) with _ | lB
    · rfl
    · rw [hc1, hc2] at hsp
      exact absurd hsp (by simp)
  · rcases hc2 : commentLoop ((skipWs lo.text lo.ln lo.col).text.length + 1)
        (skipWs lo.text lo.ln lo.col) with _ | lB
    · rw [hc1, hc2] at hsp
      exact absurd hsp (by simp)
    · rw [hc1, hc2] at hsp
      simp only [Option.map_some', Option.some.injEq] at hsp
      exact nextCore_agree lA lB hsp

/-- A full lex run on a text with an insertable block in front yields, up to
spans, the same result as on the text without the block. -/
theorem lexGo_insert (ins : List Char) (hins : Insertable ins) (f g : Nat)
    (l1 lo : Lexer) (h : l1.text = ins ++ lo.text)
    (hf : l1.text.length < f) (hg : lo.text.length < g) :
    stripRes (lexGo f l1) = stripRes (lexGo g lo) := by
  cases f with
  | zero => omega
  | succ m =>
  cases g with
  | zero => omega
  | succ k =>
  simp only [lexGo]
  have hna := next_insert ins hins l1 lo h
  rcases hn1 : l1.next with _ | r1
  · rcases hn2 : lo.next with _ | r2
    · rfl
    · rw [hn1, hn2] at hna
      rcases r2 with e2 | ⟨t2, l2'⟩ <;> simp [stripNext] at hna
  · rcases hn2 : lo.next with _ | r2
    · rw [hn1, hn2] at hna
      rcases r1 with e1 | ⟨t1, l1'⟩ <;> simp [stripNext] at hna
    · rw [hn1, hn2] at hna
      rcases r1 with e1 | ⟨t1, l1'⟩ <;> rcases r2 with e2 | ⟨t2, l2'⟩
      · simp only [stripNext, Option.some.injEq, Except.error.injEq] at hna
        simp [stripRes, hna]
      · simp [stripNext] at hna
      · simp [stripNext] at hna
      · simp only [stripNext, Option.some.injEq, Except.ok.injEq, Prod.mk.injEq] at hna
        obtain ⟨hval, htext⟩ := hna
        obtain ⟨-, hlen1'⟩ := next_suffix _ _ _ hn1
        obtain ⟨-, hlen2'⟩ := next_suffix _ _ _ hn2
        have hrec := lexGo_agree m k l1' l2' htext (by omega) (by omega)
        dsimp only
        rcases hg1 : lexGo m l1' with _ | g1
        · rcases hg2 : lexGo k l2' with _ | g2
          · rfl
          · rw [hg1, hg2] at hrec
            rcases g2 with e | ts <;> simp [stripRes] at hrec
        · rcases hg2 : lexGo k l2' with _ | g2
          · rw [hg1, hg2] at hrec
            rcases g1 with e | ts <;> simp [stripRes] at hrec
          · rw [hg1, hg2] at hrec
            rcases g1 with e | ts1 <;> rcases g2 with e2 | ts2
            · simp only [stripRes, Option.some.injEq, Except.error.injEq] at hrec
              simp [stripRes, hrec]
            · simp [stripRes] at hrec
            · simp [stripRes] at hrec
            · simp only [stripRes, Option.some.injEq, Except.ok.injEq] at hrec
              simp [stripRes, hrec, hval]

/-- Run `k` successful `next` steps; `none` when a step fails or ends. The
state after `k` steps marks the boundary between the `k`-th and the
following token. -/
def runK : Nat → Lexer → Option Lexer
  | 0, l => some l
  | k + 1, l =>
    match l.next with
    | some (.ok (_, l')) => runK k l'
    | _ => none

/-- `runK` only consumes characters from the front. -/
theorem runK_suffix (k : Nat) :
    ∀ (l lq : Lexer), runK k l = some lq → lq.text <:+ l.text := by
  induction k with
  | zero =>
    intro l lq h
    simp only [runK, Option.some.injEq] at h
    rw [h]
  | succ n ih =>
    intro l lq h
    simp only [runK] at h
    split at h
    · rename_i t l' heq
      exact (ih l' lq h).trans (next_suffix l t l' heq).1
    · exact Option.noConfusion h

/-- ASCII whitespace neither continues an identifier or number nor starts a
decimal point. -/
theorem ws_head_ok (c : Char) (h : isAsciiWhitespace c = true) :
    c.isAlphanum = false ∧ c ≠ '.' := by
  simp only [isAsciiWhitespace, Bool.or_eq_true, beq_iff_eq] at h
  rcases h with ((((rfl | rfl) | rfl) | rfl) | rfl) <;> exact ⟨by decide, by decide⟩

/-- A nonempty insertable block starts with a character that cannot continue
an identifier, a number, or a dotted path. -/
theorem insertHeadOk_of_insertable (ins Y : List Char) (hins : Insertable ins)
    (hne : ins ≠ []) : insertHeadOk (ins ++ Y) := by
  intro c r h
  cases hins with
  | nil => exact absurd rfl hne
  | ws hc hr =>
    rename_i c0 r0
    rw [List.cons_append] at h
    rw [← List.head_eq_of_cons_eq h]
    exact ws_head_ok c0 hc
  | comment hb hr =>
    rename_i b r0
    rw [List.cons_append] at h
    rw [← List.head_eq_of_cons_eq h]
    exact ⟨by decide, by decide⟩

/-- Splicing an insertable block in at a token boundary, reached after `k`
tokens, leaves the stripped lex result unchanged. -/
theorem lexGo_insert_at (ins : List Char) (hins : Insertable ins) (hne : ins ≠ [])
    (k : Nat) :
    ∀ (l l1 : Lexer) (u Y : List Char), l.text = u ++ Y →
      l1.text = u ++ (ins ++ Y) →
      ∀ (lq : Lexer), runK k l = some lq → lq.text = Y →
      ∀ (f g : Nat), l.text.length < f → l1.text.length < g →
      stripRes (lexGo f l) = stripRes (lexGo g l1) := by
  induction k with
  | zero =>
    intro l l1 u Y hl hl1 lq hrun hlq f g hf hg
    simp only [runK, Option.some.injEq] at hrun
    have hu : u = [] := by
      have h9 : u.length + Y.length = Y.length := by
        have h0 : u ++ Y = Y := by
          rw [← hl, hrun, hlq]
        have := congrArg List.length h0
        rw [List.length_append] at this
        exact this
      exact List.length_eq_zero.mp (by omega)
    subst hu
    rw [List.nil_append] at hl hl1
    refine (lexGo_insert ins hins g f l1 l ?_ hg hf).symm
    rw [hl, hl1]
  | succ n ih =>
    intro l l1 u Y hl hl1 lq hrun hlq f g hf hg
    simp only [runK] at hrun
    split at hrun
    · rename_i t l' heq
      have hsufq := runK_suffix n l' lq hrun
      rw [hlq] at hsufq
      obtain ⟨w, hw⟩ := suffix_split hsufq
      have hok2 : w = [] → insertHeadOk (ins ++ Y) := fun _ =>
        insertHeadOk_of_insertable ins Y hins hne
      obtain ⟨t', l1', hnext', hval, htext'⟩ := next_ext l u Y t l' w hl heq hw
        (ins ++ Y) hok2 l1 hl1
      obtain ⟨-, hlen1⟩ := next_suffix _ _ _ heq
      obtain ⟨-, hlen2⟩ := next_suffix _ _ _ hnext'
      cases f with
      | zero => omega
      | succ m =>
      cases g with
      | zero => omega
      | succ p =>
      simp only [lexGo]
      rw [heq, hnext']
      dsimp only
      have hrec := ih l' l1' w Y hw htext' lq hrun hlq m p (by omega) (by omega)
      rcases hg1 : lexGo m l' with _ | g1
      · rcases hg2 : lexGo p l1' with _ | g2
        · rfl
        · rw [hg1, hg2] at hrec
          rcases g2 with e | ts <;> simp [stripRes] at hrec
      · rcases hg2 : lexGo p l1' with _ | g2
        · rw [hg1, hg2] at hrec
          rcases g1 with e | ts <;> simp [stripRes] at hrec
        · rw [hg1, hg2] at hrec
          rcases g1 with e | ts1 <;> rcases g2 with e2 | ts2
          · simp only [stripRes, Option.some.injEq, Except.error.injEq] at hrec
            simp [stripRes, hrec]
          · simp [stripRes] at hrec
          · simp [stripRes] at hrec
          · simp only [stripRes, Option.some.injEq, Except.ok.injEq] at hrec
            simp [stripRes, hrec, hval]
    · exact Option.noConfusion hrun

/-- C7: comment/whitespace transparency. For every source text split as
`pre ++ post` at a token boundary — after some number `k` of successful
`next` steps the unconsumed text is exactly `post` — inserting a block of
ASCII whitespace and newline-terminated `#`-comments at that boundary leaves
the lexer's result, stripped of spans (token values, and the error kind if
lexing fails), unchanged. -/
theorem comment_whitespace_transparent (pre post ins : List Char)
    (hins : Insertable ins) (k : Nat) (lq : Lexer)
    (hboundary : runK k ⟨pre ++ post, 0, 0⟩ = some lq) (hq : lq.text = post) :
    lexValues (pre ++ (ins ++ post)) = lexValues (pre ++ post) := by
  by_cases hne : ins = []
  · subst hne
    rw [List.nil_append]
  · simp only [lexValues, lexList]
    exact (lexGo_insert_at ins hins hne k ⟨pre ++ post, 0, 0⟩
      ⟨pre ++ (ins ++ post), 0, 0⟩ pre post rfl rfl lq hboundary hq
      ((pre ++ post).length + 1) ((pre ++ (ins ++ post)).length + 1)
      (Nat.lt_succ_self _) (Nat.lt_succ_self _)).symm

/-- Witness for C7: inserting a comment line plus a space between the two
tokens of `a;` and the final `b` leaves the token values unchanged. -/
theorem comment_whitespace_transparent_witness :
    lexValues (['a', ';'] ++ (['#', 'x', '\n', ' '] ++ ['b'])) =
      lexValues (['a', ';'] ++ ['b']) :=
  comment_whitespace_transparent ['a', ';'] ['b'] ['#', 'x', '\n', ' ']
    (by
      show Insertable ('#' :: (['x'] ++ '\n' :: [' ']))
      exact Insertable.comment (by decide) (Insertable.ws (by decide) Insertable.nil))
    2 ⟨['b'], 0, 2⟩ rfl rfl

end CallParse
